import Mathlib

/-!
Verification development for the walking-bass generator of this repository
(`baseline.py`).  The Python source is shallowly embedded: times are modelled
by `ℚ`, MIDI pitches and velocities by `ℤ`, and the mutable per-beat walk
state by an explicit `WalkState` value threaded through a fold over the beat
grid.  Python's `None` becomes `Option`, `sorted({...})` becomes
`Finset.sort`, and the two `while` clamp loops of `pc_to_midi_near` become
well-founded recursions.
-/

set_option maxRecDepth 10000

namespace JazzBass

/-- A `pretty_midi.Note`: `(pitch, start, end, velocity)`.  The `end` field is
named `stop` because `end` is a reserved word in Lean. -/
structure Note where
  pitch : ℤ
  start : ℚ
  stop : ℚ
  velocity : ℤ
  deriving DecidableEq, Repr

/-- A `pretty_midi.TimeSignature` change: numerator, denominator, time. -/
structure TimeSignature where
  numerator : ℕ
  denominator : ℕ
  time : ℚ
  deriving DecidableEq, Repr

/-- A `pretty_midi.Instrument`: program number, display name, drum flag and
its ordered note list. -/
structure Instrument where
  program : ℤ
  name : String
  isDrum : Bool
  notes : List Note
  deriving DecidableEq, Repr

/-- A `pretty_midi.PrettyMIDI` score.  The tempo/meter timeline of the
library is represented by the data the source actually reads from it:
`time_signature_changes`, `get_beats()` and `get_downbeats()`. -/
structure Score where
  instruments : List Instrument
  timeSignatureChanges : List TimeSignature
  beats : List ℚ
  downbeats : List ℚ
  deriving DecidableEq, Repr

/-! ### Constants of `baseline.py` -/

/-- Constant `BASS_PROGRAM = 33` (Acoustic Bass). -/
def BASS_PROGRAM : ℤ := 33

/-- Constant `VEL = 85`. -/
def VEL : ℤ := 85

/-- Constant `C1 = 24`, low end of the bass range. -/
def C1 : ℤ := 24

/-- Constant `C3 = 48`, high end of the bass range. -/
def C3 : ℤ := 48

/-- Constant `NOTE_DENSITY = 1`. -/
def NOTE_DENSITY : ℕ := 1

/-- Constant `CHORD_VEL_SCALE = 0.7`. -/
def CHORD_VEL_SCALE : ℚ := 7 / 10

/-- Default value of the `slices` parameter of `avg_simultaneity`. -/
def SLICES : ℕ := 512

/-! ### `effective_note_density` -/

/-- Source `effective_note_density(pm)`: start from `NOTE_DENSITY` and double it when
the first declared time signature has denominator `2`. -/
def effective_note_density (pm : Score) : ℕ :=
  let dens := NOTE_DENSITY
  match pm.timeSignatureChanges with
  | [] => dens
  | ts :: _ => if ts.denominator = 2 then dens * 2 else dens

/-! ### `pc_to_midi_near` -/

/-- The loop `while chosen < C1: chosen += 12`. -/
def clampLow (m : ℤ) : ℤ :=
  if m < C1 then clampLow (m + 12) else m
termination_by (C1 - m).toNat
decreasing_by simp_wf; omega

/-- The loop `while chosen > C3: chosen -= 12`. -/
def clampHigh (m : ℤ) : ℤ :=
  if C3 < m then clampHigh (m - 12) else m
termination_by (m - C3).toNat
decreasing_by simp_wf; omega

/-- Source `pc_to_midi_near(pc, ref_midi)`: enumerate the octave transpositions
`pc + 12*octv` for `octv in range(0, 10)`, take the first one minimising the
distance to the reference (Python `min` keeps the earliest minimiser), then
clamp into `[C1, C3]` by repeated octave shifts. -/
def pc_to_midi_near (pc : ℤ) (refMidi : Option ℤ) : ℤ :=
  let base : ℤ :=
    match refMidi with
    | none => 36
    | some r => r
  let candidates : List ℤ := (List.range 10).map (fun (octv : ℕ) => pc + 12 * (octv : ℤ))
  let chosen : ℤ :=
    match candidates with
    | [] => 0
    | c :: cs => cs.foldl (fun b a => if |a - base| < |b - base| then a else b) c
  clampHigh (clampLow chosen)

/-! ### Harmony extraction -/

/-- Source `notes_overlapping(instrument, start, end)`: the notes whose interval
overlaps the half-open window, `n.start < end and n.end > start`. -/
def notes_overlapping (inst : Instrument) (start stop : ℚ) : List Note :=
  inst.notes.filter (fun n => decide (n.start < stop ∧ n.stop > start))

/-- The set of sounding pitch classes of a list of notes,
`{n.pitch % 12 for n in notes}`. -/
def pcFinset (notes : List Note) : Finset ℤ :=
  (notes.map (fun n => n.pitch % 12)).toFinset

/-- Source `chord_pitch_classes(notes) = sorted({n.pitch % 12 for n in notes})`. -/
def chord_pitch_classes (notes : List Note) : List ℤ :=
  (pcFinset notes).sort (· ≤ ·)

/-! ### `avg_simultaneity` -/

/-- Model of `np.linspace(a, b, num)`: `num` equally spaced points from `a` to `b`
inclusive. -/
def linspace (a b : ℚ) (num : ℕ) : List ℚ :=
  (List.range num).map (fun (i : ℕ) => a + (i : ℚ) * ((b - a) / ((num : ℚ) - 1)))

/-- Python `min(n.start for n in notes)` (0 on the empty list, never consulted
there). -/
def minStart (notes : List Note) : ℚ :=
  match notes with
  | [] => 0
  | n :: ns => ns.foldl (fun a m => min a m.start) n.start

/-- Python `max(n.end for n in notes)` (0 on the empty list, never consulted
there). -/
def maxEnd (notes : List Note) : ℚ :=
  match notes with
  | [] => 0
  | n :: ns => ns.foldl (fun a m => max a m.stop) n.stop

/-- Source `avg_simultaneity(inst, slices)`: sample `slices` linspace points over the
track's time span and average, over the `slices - 1` adjacent pairs, the
number of notes overlapping each sub-interval. -/
def avg_simultaneity (inst : Instrument) (slices : ℕ) : ℚ :=
  if inst.notes = [] then 0
  else
    let t0 := minStart inst.notes
    let t1 := maxEnd inst.notes
    if t1 ≤ t0 then 0
    else
      let times := linspace t0 t1 slices
      let tot : ℚ :=
        ((List.range (times.length - 1)).map (fun i =>
          ((inst.notes.filter (fun n =>
              decide (n.start < times.getD (i + 1) 0 ∧ n.stop > times.getD i 0))).length : ℚ))).sum
      tot / (((times.length : ℤ) - 1 : ℤ) : ℚ)

/-- Modelled from the spec: the §4.1 "average simultaneity score", the mean
over the equally spaced sample points themselves of the count of notes whose
interval contains each sample point.  The source has no such function; this
definition exists only to be compared with `avg_simultaneity`. -/
def avg_simultaneity_pointwise (inst : Instrument) (slices : ℕ) : ℚ :=
  if inst.notes = [] then 0
  else
    let t0 := minStart inst.notes
    let t1 := maxEnd inst.notes
    if t1 ≤ t0 then 0
    else
      let times := linspace t0 t1 slices
      ((times.map (fun t =>
        ((inst.notes.filter (fun n => decide (n.start ≤ t ∧ t ≤ n.stop))).length : ℚ))).sum)
        / (times.length : ℚ)

/-! ### Velocity scaling -/

/-- Python `round`: round half to even. -/
def pyRound (q : ℚ) : ℤ :=
  let f := ⌊q⌋
  let r := q - (f : ℚ)
  if r < 1 / 2 then f
  else if 1 / 2 < r then f + 1
  else if f % 2 = 0 then f else f + 1

/-- Source `scale_instrument_velocity(inst, scale)`:
`n.velocity = max(1, min(127, round(n.velocity * scale)))` for every note. -/
def scale_instrument_velocity (inst : Instrument) (scale : ℚ) : Instrument :=
  { inst with notes := inst.notes.map (fun n =>
      { n with velocity := max 1 (min 127 (pyRound ((n.velocity : ℚ) * scale))) }) }

/-! ### Track selection (`add_bassline`, steps 1-3) -/

/-- Python substring test `needle in hay.lower()` (the needle is passed
already lowercased). -/
def strContainsLower (hay needle : String) : Bool :=
  let h := (hay.toLower).toList
  let nd := needle.toList
  (List.range (h.length + 1)).any (fun i => nd.isPrefixOf (List.drop i h))

/-- Step 1 predicate: `inst.name and inst.name.startswith(pref)`. -/
def isChordPrefMatch (pref : String) (inst : Instrument) : Bool :=
  !inst.name.isEmpty && pref.toList.isPrefixOf inst.name.toList

/-- Step 2 predicate: `inst.name and ("chords" in inst.name.lower())`. -/
def isChordFuzzyMatch (inst : Instrument) : Bool :=
  !inst.name.isEmpty && strContainsLower inst.name "chords"

/-- Step 3: index of the first instrument with a strictly maximal
`avg_simultaneity` score among instruments with at least one note
(`best, best_score = None, -1.0` and replace on `score > best_score and
inst.notes`). -/
def mostPolyphonicIdx (insts : List Instrument) : Option ℕ :=
  ((insts.enum).foldl (fun best p =>
      let score := avg_simultaneity p.2 SLICES
      if score > best.2 ∧ p.2.notes ≠ [] then (some p.1, score) else best)
    ((none, -1) : Option ℕ × ℚ)).1

/-- The three-stage chords-track resolution of `add_bassline`, returning the
index of the chosen instrument (an index models Python's in-place mutation of
the chosen track). -/
def resolveChordsIdx (pm : Score) (pref : String) : Option ℕ :=
  match pm.instruments.findIdx? (isChordPrefMatch pref) with
  | some i => some i
  | none =>
    match pm.instruments.findIdx? isChordFuzzyMatch with
    | some i => some i
    | none => mostPolyphonicIdx pm.instruments

/-- Predicate for when `add_bassline` reports "no chords instrument" (and returns the score
unchanged) when resolution fails or the resolved track has no notes:
`chords_inst is None or not chords_inst.notes`. -/
def noHarmony (pm : Score) (pref : String) : Bool :=
  match resolveChordsIdx pm pref with
  | none => true
  | some ci =>
    match pm.instruments[ci]? with
    | none => true
    | some ch => ch.notes.isEmpty

/-! ### The chord-walk state machine -/

/-- The per-song mutable walk state of `add_bassline`:
`prev_pcset`, `order`, `idx`, `dir_up`, `prev_midi`. -/
structure WalkState where
  prevPcset : Option (List ℤ)
  order : List ℤ
  idx : ℕ
  dirUp : Bool
  prevMidi : Option ℤ
  deriving DecidableEq, Repr

/-- The initial walk state: `prev_pcset = None`, `order = []`, `idx = 0`,
`dir_up = True`, `prev_midi = None`. -/
def walkInit : WalkState := ⟨none, [], 0, true, none⟩

/-- Lines 242-255 of the beat loop: on silence sustain `prev_pcset` (skip the
beat when there is none); on a pitch-class set different from `prev_pcset`
reset to the bottom of the new chord ascending.  Returns the state from which
the current pitch class is selected, or `none` when the beat is skipped. -/
def observe (s : WalkState) (pcs : List ℤ) : Option WalkState :=
  match (if pcs = [] then s.prevPcset else some pcs) with
  | none => none
  | some pcsTuple =>
    if some pcsTuple ≠ s.prevPcset then
      some { s with order := pcsTuple, idx := 0, dirUp := true, prevPcset := some pcsTuple }
    else
      some s

/-- Selection `pc = order[idx]` (total model of the Python indexing; the safety claim
shows the index is always in range on reachable states). -/
def select (s : WalkState) : ℤ := s.order.getD s.idx 0

/-- Lines 269-282, the ping-pong advance on the pair `(idx, dir_up)` for a
chord-tone list of length `k`. -/
def stepA (k : ℕ) (p : ℕ × Bool) : ℕ × Bool :=
  match p with
  | (i, true) => if i + 1 < k then (i + 1, true) else (if 1 < k then i - 1 else i, false)
  | (i, false) => if 1 ≤ i then (i - 1, false) else (if 1 < k then i + 1 else i, true)

/-- The advance step acting on the whole walk state. -/
def advance (s : WalkState) : WalkState :=
  let p := stepA s.order.length (s.idx, s.dirUp)
  { s with idx := p.1, dirUp := p.2 }

/-- One iteration of the beat loop given the observed pitch-class set and the
window `[t0, t1)`: observe, select, project into the bass range, emit the
slightly shortened note, advance. -/
def walkBeat (s : WalkState) (pcs : List ℤ) (t0 t1 : ℚ) : WalkState × Option Note :=
  match observe s pcs with
  | none => (s, none)
  | some s1 =>
    let pc := select s1
    let midiPitch := pc_to_midi_near pc (some ((s1.prevMidi).getD 36))
    let dur := (t1 - t0) * (98 / 100)
    let s2 := advance { s1 with prevMidi := some midiPitch }
    (s2, some ⟨midiPitch, t0, t0 + dur, VEL⟩)

/-- The full beat loop `for bi in range(len(beats) - 1)`: walk the adjacent
beat pairs and collect the emitted bass notes. -/
def bassRun (chords : Instrument) : WalkState → List ℚ → List Note
  | _, [] => []
  | _, [_] => []
  | s, t0 :: t1 :: rest =>
    let pcs := chord_pitch_classes (notes_overlapping chords t0 t1)
    match walkBeat s pcs t0 t1 with
    | (s2, none) => bassRun chords s2 (t1 :: rest)
    | (s2, some note) => note :: bassRun chords s2 (t1 :: rest)

/-- The chord-walk state machine run on a bare sequence of pitch-class-set
observations, recording `(idx, order[idx])` for every beat that selects a
pitch class.  (`prev_midi` plays no role here: `observe`, `select` and
`advance` neither read nor write it.) -/
def runWalk (s : WalkState) : List (List ℤ) → List (ℕ × ℤ)
  | [] => []
  | pcs :: rest =>
    match observe s pcs with
    | none => runWalk s rest
    | some s1 => (s1.idx, select s1) :: runWalk (advance s1) rest

/-- The states at which `select` is evaluated along a run, for the safety
claim. -/
def selStates (s : WalkState) : List (List ℤ) → List WalkState
  | [] => []
  | pcs :: rest =>
    match observe s pcs with
    | none => selStates s rest
    | some s1 => s1 :: selStates (advance s1) rest

/-- Invariant of the walk state: either no chord has ever been active, or
`order` is the non-empty active set and `idx` is in range. -/
def WalkInv (s : WalkState) : Prop :=
  s.prevPcset = none ∨
    (s.prevPcset = some s.order ∧ s.order ≠ [] ∧ s.idx < s.order.length)

/-- The deterministic ping-pong index sequence
`0, 1, ..., k-1, k-2, ..., 1, 0, 1, ...` of the spec, with period
`2*k - 2`. -/
def pingPongIdx (k n : ℕ) : ℕ :=
  let m := n % (2 * k - 2)
  if m < k then m else 2 * k - 2 - m

/-- Closed form of the direction flag after `n` advance steps (valid from the
first step on). -/
def dirUpAt (k n : ℕ) : Bool :=
  decide (1 ≤ n % (2 * k - 2) ∧ n % (2 * k - 2) ≤ k - 1)

/-! ### Beat grid -/

/-- Model of `np.arange(start, stop, step)` for positive step. -/
def arange (start stop step : ℚ) : List ℚ :=
  (List.range (⌈(stop - start) / step⌉.toNat)).map (fun (k : ℕ) => start + (k : ℚ) * step)

/-- Density subdivision of the beat grid: for every adjacent pair insert
`dens` linspace sub-steps (dropping each segment's endpoint), then re-append
the final boundary. -/
def subdivide_beats (dens : ℕ) (beats : List ℚ) : List ℚ :=
  (((List.range (beats.length - 1)).map (fun i =>
      (linspace (beats.getD i 0) (beats.getD (i + 1) 0) (dens + 1)).dropLast)).flatten)
    ++ [beats.getLastD 0]

/-- The beat-grid part of `add_bassline`: `pm.get_beats()`, falling back to
downbeats and then to a 0.5-second grid over the chord track's span, then
density subdivision. -/
def computeBeats (pm : Score) (chords : Instrument) : List ℚ :=
  let beats0 := pm.beats
  let beats1 :=
    if beats0.length < 2 then
      if 2 ≤ pm.downbeats.length then pm.downbeats
      else arange (minStart chords.notes) (maxEnd chords.notes) (1 / 2)
    else beats0
  let dens := effective_note_density pm
  if 1 < dens then subdivide_beats dens beats1 else beats1

/-- The generated bass track: Acoustic Bass program, fixed name. -/
def bassInstrument (ns : List Note) : Instrument :=
  { program := BASS_PROGRAM, name := "Walking Bass (auto)", isDrum := false, notes := ns }

/-- Source `add_bassline(pm, chord_instr_name_prefix)`. -/
def add_bassline (pm : Score) (pref : String) : Score :=
  match resolveChordsIdx pm pref with
  | none => pm
  | some ci =>
    match pm.instruments[ci]? with
    | none => pm
    | some ch =>
      if ch.notes = [] then pm
      else
        let chords := scale_instrument_velocity ch CHORD_VEL_SCALE
        let beats := computeBeats pm chords
        let bassNotes := bassRun chords walkInit beats
        { pm with instruments := (pm.instruments.set ci chords) ++ [bassInstrument bassNotes] }

/-! ## Helper lemmas: the clamp loops -/

lemma clampLow_eq (m : ℤ) : clampLow m = if m < C1 then clampLow (m + 12) else m := by
  rw [clampLow]

lemma clampHigh_eq (m : ℤ) : clampHigh m = if C3 < m then clampHigh (m - 12) else m := by
  rw [clampHigh]

lemma clampLow_of_ge (m : ℤ) (h : C1 ≤ m) : clampLow m = m := by
  rw [clampLow_eq, if_neg (by omega)]

lemma clampHigh_of_le (m : ℤ) (h : m ≤ C3) : clampHigh m = m := by
  rw [clampHigh_eq, if_neg (by omega)]

lemma clampLow_spec : ∀ m : ℤ,
    clampLow m % 12 = m % 12 ∧ (m < C1 → C1 ≤ clampLow m ∧ clampLow m < C1 + 12) := by
  have H : ∀ (fuel : ℕ) (m : ℤ), (C1 - m).toNat ≤ fuel →
      clampLow m % 12 = m % 12 ∧ (m < C1 → C1 ≤ clampLow m ∧ clampLow m < C1 + 12) := by
    intro fuel
    induction fuel with
    | zero =>
      intro m hm
      have hge : C1 ≤ m := by omega
      rw [clampLow_of_ge m hge]
      exact ⟨rfl, fun h => absurd h (by omega)⟩
    | succ n ih =>
      intro m hm
      by_cases hlt : m < C1
      · have hrec := ih (m + 12) (by omega)
        have heq : clampLow m = clampLow (m + 12) := by rw [clampLow_eq, if_pos hlt]
        constructor
        · rw [heq, hrec.1]; omega
        · intro _
          by_cases h2 : m + 12 < C1
          · have := hrec.2 h2; omega
          · have : clampLow (m + 12) = m + 12 := clampLow_of_ge _ (by omega)
            rw [heq, this]; omega
      · rw [clampLow_of_ge m (by omega)]
        exact ⟨rfl, fun h => absurd h hlt⟩
  intro m
  exact H (C1 - m).toNat m le_rfl

lemma clampHigh_spec : ∀ m : ℤ,
    clampHigh m % 12 = m % 12 ∧ (C3 < m → C3 - 12 < clampHigh m ∧ clampHigh m ≤ C3) := by
  have H : ∀ (fuel : ℕ) (m : ℤ), (m - C3).toNat ≤ fuel →
      clampHigh m % 12 = m % 12 ∧ (C3 < m → C3 - 12 < clampHigh m ∧ clampHigh m ≤ C3) := by
    intro fuel
    induction fuel with
    | zero =>
      intro m hm
      have hle : m ≤ C3 := by omega
      rw [clampHigh_of_le m hle]
      exact ⟨rfl, fun h => absurd h (by omega)⟩
    | succ n ih =>
      intro m hm
      by_cases hgt : C3 < m
      · have hrec := ih (m - 12) (by omega)
        have heq : clampHigh m = clampHigh (m - 12) := by rw [clampHigh_eq, if_pos hgt]
        constructor
        · rw [heq, hrec.1]; omega
        · intro _
          by_cases h2 : C3 < m - 12
          · have := hrec.2 h2; omega
          · have : clampHigh (m - 12) = m - 12 := clampHigh_of_le _ (by omega)
            rw [heq, this]; omega
      · rw [clampHigh_of_le m (by omega)]
        exact ⟨rfl, fun h => absurd h hgt⟩
  intro m
  exact H (m - C3).toNat m le_rfl

/-- Both clamp loops after one another send any pitch into `[C1, C3]`
preserving its pitch class. -/
lemma clamp_pair_spec (x : ℤ) :
    C1 ≤ clampHigh (clampLow x) ∧ clampHigh (clampLow x) ≤ C3 ∧
      clampHigh (clampLow x) % 12 = x % 12 := by
  obtain ⟨hLmod, hLlt⟩ := clampLow_spec x
  by_cases h1 : x < C1
  · obtain ⟨hge, hlt⟩ := hLlt h1
    have hle : clampLow x ≤ C3 := by
      have : (24 : ℤ) + 12 ≤ 48 := by norm_num
      simp only [C1, C3] at *
      omega
    rw [clampHigh_of_le _ hle]
    refine ⟨hge, hle, hLmod⟩
  · have hLeq : clampLow x = x := clampLow_of_ge x (by omega)
    rw [hLeq]
    obtain ⟨hHmod, hHlt⟩ := clampHigh_spec x
    by_cases h2 : C3 < x
    · obtain ⟨hgt, hle⟩ := hHlt h2
      refine ⟨by simp only [C1, C3] at *; omega, hle, hHmod⟩
    · rw [clampHigh_of_le x (by omega)]
      refine ⟨by omega, by omega, rfl⟩

/-- The first-minimiser fold of `pc_to_midi_near` preserves any predicate
holding on the seed and every list element. -/
lemma foldl_min_pred (P : ℤ → Prop) (base : ℤ) :
    ∀ (cs : List ℤ) (c : ℤ), P c → (∀ x ∈ cs, P x) →
      P (cs.foldl (fun b a => if |a - base| < |b - base| then a else b) c) := by
  intro cs
  induction cs with
  | nil => intro c hc _; simpa using hc
  | cons a as ih =>
    intro c hc hall
    simp only [List.foldl_cons]
    by_cases h : |a - base| < |c - base|
    · simp only [if_pos h]
      exact ih a (hall a (by simp)) (fun x hx => hall x (by simp [hx]))
    · simp only [if_neg h]
      exact ih c hc (fun x hx => hall x (by simp [hx]))

/-- C4: for every pitch class `pc ∈ [0, 12)` and every reference pitch, the
Range Projector's output `p` satisfies `C1 ≤ p ≤ C3` and `p % 12 = pc`; in
particular with reference pitch 36, target pitch class 0 and range `[24, 48]`
it returns exactly 36. -/
theorem range_projector_correct (pc r : ℤ) (h0 : 0 ≤ pc) (h12 : pc < 12) :
    (C1 ≤ pc_to_midi_near pc (some r) ∧ pc_to_midi_near pc (some r) ≤ C3 ∧
      pc_to_midi_near pc (some r) % 12 = pc) ∧
    pc_to_midi_near 0 (some 36) = 36 := by
  have hdef : pc_to_midi_near pc (some r) =
      clampHigh (clampLow ([pc + 12 * 1, pc + 12 * 2, pc + 12 * 3, pc + 12 * 4, pc + 12 * 5,
          pc + 12 * 6, pc + 12 * 7, pc + 12 * 8, pc + 12 * 9].foldl
        (fun b a => if |a - r| < |b - r| then a else b) (pc + 12 * 0))) := rfl
  have hmem := foldl_min_pred (fun x => x % 12 = pc % 12) r
    [pc + 12 * 1, pc + 12 * 2, pc + 12 * 3, pc + 12 * 4, pc + 12 * 5,
      pc + 12 * 6, pc + 12 * 7, pc + 12 * 8, pc + 12 * 9] (pc + 12 * 0)
    (by omega)
    (by
      intro x hx
      simp only [List.mem_cons, List.not_mem_nil, or_false] at hx
      rcases hx with rfl | rfl | rfl | rfl | rfl | rfl | rfl | rfl | rfl <;> omega)
  obtain ⟨hA, hB, hC⟩ := clamp_pair_spec
    ([pc + 12 * 1, pc + 12 * 2, pc + 12 * 3, pc + 12 * 4, pc + 12 * 5,
      pc + 12 * 6, pc + 12 * 7, pc + 12 * 8, pc + 12 * 9].foldl
        (fun b a => if |a - r| < |b - r| then a else b) (pc + 12 * 0))
  have h36 : pc_to_midi_near 0 (some 36) = clampHigh (clampLow 36) := rfl
  refine ⟨⟨?_, ?_, ?_⟩, ?_⟩
  · rw [hdef]; exact hA
  · rw [hdef]; exact hB
  · rw [hdef, hC, hmem, Int.emod_eq_of_lt h0 h12]
  · rw [h36, clampLow_of_ge 36 (by norm_num [C1]), clampHigh_of_le 36 (by norm_num [C3])]

/-- Witness for C4 at `pc = 5`, reference pitch `100`. -/
theorem range_projector_correct_witness :
    (C1 ≤ pc_to_midi_near 5 (some 100) ∧ pc_to_midi_near 5 (some 100) ≤ C3 ∧
      pc_to_midi_near 5 (some 100) % 12 = 5) ∧
    pc_to_midi_near 0 (some 36) = 36 :=
  range_projector_correct 5 100 (by norm_num) (by norm_num)

/-! ## Helper lemmas: the ping-pong advance -/

lemma stepA_true (k i : ℕ) :
    stepA k (i, true) = if i + 1 < k then (i + 1, true) else (if 1 < k then i - 1 else i, false) :=
  rfl

lemma stepA_false (k i : ℕ) :
    stepA k (i, false) = if 1 ≤ i then (i - 1, false) else (if 1 < k then i + 1 else i, true) :=
  rfl

lemma pingPongIdx_eq (k n : ℕ) :
    pingPongIdx k n =
      if n % (2 * k - 2) < k then n % (2 * k - 2) else 2 * k - 2 - n % (2 * k - 2) :=
  rfl

/-- One advance step maps the closed-form state at time `n ≥ 1` to the
closed-form state at time `n + 1`. -/
lemma stepA_pingPong (k : ℕ) (hk : 2 ≤ k) (n : ℕ) (hn : 1 ≤ n) :
    stepA k (pingPongIdx k n, dirUpAt k n) = (pingPongIdx k (n + 1), dirUpAt k (n + 1)) := by
  have hmlt : n % (2 * k - 2) < 2 * k - 2 := Nat.mod_lt _ (by omega)
  have hm1 : (n + 1) % (2 * k - 2) = (n % (2 * k - 2) + 1) % (2 * k - 2) := by
    rw [Nat.add_mod, Nat.mod_eq_of_lt (show (1 : ℕ) < 2 * k - 2 by omega)]
  by_cases h0 : n % (2 * k - 2) = 0
  · -- at the bottom, descending: flip back up
    have hd : dirUpAt k n = false := by
      simp only [dirUpAt, decide_eq_false_iff_not]; omega
    have hi : pingPongIdx k n = 0 := by rw [pingPongIdx_eq, if_pos (by omega), h0]
    have hm' : (n + 1) % (2 * k - 2) = 1 := by
      rw [hm1, h0]; exact Nat.mod_eq_of_lt (by omega)
    have hd' : dirUpAt k (n + 1) = true := by
      simp only [dirUpAt, decide_eq_true_eq]; rw [hm']; omega
    rw [hi, hd, stepA_false, if_neg (by omega), if_pos (by omega),
      pingPongIdx_eq, hm', if_pos (by omega), hd']
  · by_cases h1 : n % (2 * k - 2) ≤ k - 2
    · -- ascending strictly below the top
      have hd : dirUpAt k n = true := by
        simp only [dirUpAt, decide_eq_true_eq]; omega
      have hi : pingPongIdx k n = n % (2 * k - 2) := by
        rw [pingPongIdx_eq, if_pos (by omega)]
      have hm' : (n + 1) % (2 * k - 2) = n % (2 * k - 2) + 1 := by
        rw [hm1]; exact Nat.mod_eq_of_lt (by omega)
      have hd' : dirUpAt k (n + 1) = true := by
        simp only [dirUpAt, decide_eq_true_eq]; rw [hm']; omega
      rw [hi, hd, stepA_true, if_pos (by omega),
        pingPongIdx_eq, hm', if_pos (by omega), hd']
    · by_cases h2 : n % (2 * k - 2) = k - 1
      · -- at the top, ascending: flip down
        have hd : dirUpAt k n = true := by
          simp only [dirUpAt, decide_eq_true_eq]; omega
        have hi : pingPongIdx k n = k - 1 := by
          rw [pingPongIdx_eq, if_pos (by omega), h2]
        rw [hi, hd, stepA_true, if_neg (by omega), if_pos (by omega)]
        by_cases hk2 : k = 2
        · have hm' : (n + 1) % (2 * k - 2) = 0 := by
            subst hk2; rw [hm1, h2]
          have hd' : dirUpAt k (n + 1) = false := by
            simp only [dirUpAt, decide_eq_false_iff_not]; rw [hm']; omega
          rw [pingPongIdx_eq, hm', if_pos (by omega), hd']
          simp only [Prod.mk.injEq]
          exact ⟨by omega, trivial⟩
        · have hm' : (n + 1) % (2 * k - 2) = k := by
            rw [hm1, h2, show k - 1 + 1 = k by omega]
            exact Nat.mod_eq_of_lt (by omega)
          have hd' : dirUpAt k (n + 1) = false := by
            simp only [dirUpAt, decide_eq_false_iff_not]; rw [hm']; omega
          rw [pingPongIdx_eq, hm', if_neg (by omega), hd']
          simp only [Prod.mk.injEq]
          exact ⟨by omega, trivial⟩
      · -- descending strictly above the bottom
        have hd : dirUpAt k n = false := by
          simp only [dirUpAt, decide_eq_false_iff_not]; omega
        have hi : pingPongIdx k n = 2 * k - 2 - n % (2 * k - 2) := by
          rw [pingPongIdx_eq, if_neg (by omega)]
        rw [hi, hd, stepA_false, if_pos (by omega)]
        by_cases hlast : n % (2 * k - 2) = 2 * k - 3
        · have hm' : (n + 1) % (2 * k - 2) = 0 := by
            rw [hm1, hlast, show 2 * k - 3 + 1 = 2 * k - 2 by omega, Nat.mod_self]
          have hd' : dirUpAt k (n + 1) = false := by
            simp only [dirUpAt, decide_eq_false_iff_not]; rw [hm']; omega
          rw [pingPongIdx_eq, hm', if_pos (by omega), hd']
          simp only [Prod.mk.injEq]
          exact ⟨by omega, trivial⟩
        · have hm' : (n + 1) % (2 * k - 2) = n % (2 * k - 2) + 1 := by
            rw [hm1]; exact Nat.mod_eq_of_lt (by omega)
          have hd' : dirUpAt k (n + 1) = false := by
            simp only [dirUpAt, decide_eq_false_iff_not]; rw [hm']; omega
          rw [pingPongIdx_eq, hm', if_neg (by omega), hd']
          simp only [Prod.mk.injEq]
          exact ⟨by omega, trivial⟩

/-- Closed form of the iterated advance from the reset state `(0, true)`. -/
lemma walkPair_eq (k : ℕ) (hk : 2 ≤ k) :
    ∀ n, 1 ≤ n → (stepA k)^[n] (0, true) = (pingPongIdx k n, dirUpAt k n) := by
  intro n
  induction n with
  | zero => intro h; exact absurd h (by omega)
  | succ n ih =>
    intro _
    by_cases h : 1 ≤ n
    · rw [Function.iterate_succ_apply', ih h, stepA_pingPong k hk n h]
    · have hn0 : n = 0 := by omega
      subst hn0
      have h1 : (1 : ℕ) % (2 * k - 2) = 1 := Nat.mod_eq_of_lt (by omega)
      have hd' : dirUpAt k 1 = true := by
        simp only [dirUpAt, decide_eq_true_eq]; rw [h1]; omega
      rw [Function.iterate_one, stepA_true, if_pos (by omega),
        pingPongIdx_eq, h1, if_pos (by omega), hd']

/-- The index component of the iterated advance is the ping-pong sequence. -/
lemma walkPair_fst (k : ℕ) (hk : 2 ≤ k) (n : ℕ) :
    ((stepA k)^[n] (0, true)).1 = pingPongIdx k n := by
  by_cases h : 1 ≤ n
  · rw [walkPair_eq k hk n h]
  · have hn0 : n = 0 := by omega
    subst hn0
    rw [Function.iterate_zero_apply, pingPongIdx_eq, Nat.zero_mod, if_pos (by omega)]

/-- For a one-tone chord the advance never moves the index off 0. -/
lemma iter_stepA_one (n : ℕ) : ∀ d : Bool, ∃ d2 : Bool, (stepA 1)^[n] (0, d) = (0, d2) := by
  induction n with
  | zero => intro d; exact ⟨d, rfl⟩
  | succ n ih =>
    intro d
    rw [Function.iterate_succ_apply]
    cases d with
    | false => rw [show stepA 1 (0, false) = (0, true) from rfl]; exact ih true
    | true => rw [show stepA 1 (0, true) = (0, false) from rfl]; exact ih false

/-! ## Helper lemmas: observe / advance -/

lemma advance_order (s : WalkState) : (advance s).order = s.order := rfl

lemma advance_prevPcset (s : WalkState) : (advance s).prevPcset = s.prevPcset := rfl

lemma advance_prevMidi (s : WalkState) : (advance s).prevMidi = s.prevMidi := rfl

lemma advance_idx (s : WalkState) :
    (advance s).idx = (stepA s.order.length (s.idx, s.dirUp)).1 := rfl

lemma advance_dirUp (s : WalkState) :
    (advance s).dirUp = (stepA s.order.length (s.idx, s.dirUp)).2 := rfl

/-- Observing the pitch-class set already active (also the degenerate way
this happens on silence) performs no reset: the state is returned as is. -/
lemma observe_self (s : WalkState) (l : List ℤ) (h : s.prevPcset = some l) :
    observe s l = some s := by
  unfold observe
  by_cases hl : l = []
  · subst hl
    rw [if_pos rfl, h]
    simp [h]
  · rw [if_neg hl]
    simp [h]

/-- Observing silence with no active chord skips the beat. -/
lemma observe_silence_none (s : WalkState) (h : s.prevPcset = none) :
    observe s [] = none := by
  unfold observe
  rw [if_pos rfl, h]

/-- Observing a non-empty pitch-class set different from the active one
resets the walk to the bottom of the new chord, ascending. -/
lemma observe_reset (s : WalkState) (pcs : List ℤ) (hne : pcs ≠ [])
    (hdiff : some pcs ≠ s.prevPcset) :
    observe s pcs =
      some { s with order := pcs, idx := 0, dirUp := true, prevPcset := some pcs } := by
  unfold observe
  rw [if_neg hne]
  simp [hdiff]

/-- A run on `M` repeats of the active chord from a coherent state walks the
iterated advance of `(idx, dirUp)` and selects `order` at each index. -/
lemma runWalk_const (l : List ℤ) :
    ∀ (M : ℕ) (s : WalkState), s.prevPcset = some l → s.order = l →
      runWalk s (List.replicate M l) =
        (List.range M).map (fun j =>
          (((stepA l.length)^[j] (s.idx, s.dirUp)).1,
            l.getD (((stepA l.length)^[j] (s.idx, s.dirUp)).1) 0)) := by
  intro M
  induction M with
  | zero => intro s _ _; simp [runWalk]
  | succ M ih =>
    intro s hp ho
    rw [List.replicate_succ]
    have hobs : observe s l = some s := observe_self s l hp
    have hsel : select s = l.getD s.idx 0 := by rw [select, ho]
    have hstep : ((advance s).idx, (advance s).dirUp) = stepA l.length (s.idx, s.dirUp) := by
      rw [advance_idx, advance_dirUp, ho]
    have htail := ih (advance s) (by rw [advance_prevPcset, hp]) (by rw [advance_order, ho])
    rw [show runWalk s (l :: List.replicate M l) =
        (s.idx, select s) :: runWalk (advance s) (List.replicate M l) by
      simp [runWalk, hobs]]
    rw [htail, hsel, List.range_succ_eq_map, List.map_cons, List.map_map]
    congr 1
    apply List.map_congr_left
    intro j _
    simp only [Function.comp_apply]
    rw [hstep, ← Function.iterate_succ_apply]

/-- The state produced by the first observation of a fresh chord. -/
lemma observe_init (l : List ℤ) (hl : l ≠ []) :
    observe walkInit l = some ⟨some l, l, 0, true, none⟩ := by
  rw [observe_reset walkInit l hl (by simp [walkInit])]
  rfl

/-- C1: for every chord of size `k ≥ 2`, the indices selected by the chord
walk over `N` consecutive beats with no chord change are the ping-pong
sequence `0, 1, ..., k-1, k-2, ..., 1, 0, 1, ...` truncated to `N` elements;
for `k = 1` the selected pitch class is the same on every such beat. -/
theorem chord_walk_ping_pong (l : List ℤ) (N : ℕ) (hl : l ≠ []) :
    (2 ≤ l.length →
      (runWalk walkInit (List.replicate N l)).map Prod.fst =
        (List.range N).map (pingPongIdx l.length)) ∧
    (l.length = 1 →
      (runWalk walkInit (List.replicate N l)).map Prod.snd =
        List.replicate N (l.getD 0 0)) := by
  cases N with
  | zero => exact ⟨fun _ => by simp [runWalk], fun _ => by simp [runWalk]⟩
  | succ M =>
    rw [List.replicate_succ]
    have hobs := observe_init l hl
    have hrun : runWalk walkInit (l :: List.replicate M l) =
        (0, l.getD 0 0) :: runWalk (advance ⟨some l, l, 0, true, none⟩)
          (List.replicate M l) := by
      simp [runWalk, hobs, select]
    have hstep : ((advance (⟨some l, l, 0, true, none⟩ : WalkState)).idx,
        (advance (⟨some l, l, 0, true, none⟩ : WalkState)).dirUp) =
        stepA l.length (0, true) := rfl
    have htail := runWalk_const l M (advance ⟨some l, l, 0, true, none⟩) rfl rfl
    constructor
    · intro hk
      rw [hrun, htail, List.map_cons, List.map_map, List.range_succ_eq_map, List.map_cons]
      congr 1
      · rw [pingPongIdx_eq, Nat.zero_mod, if_pos (by omega)]
      · rw [List.map_map]
        apply List.map_congr_left
        intro j _
        simp only [Function.comp_apply]
        have hit : (stepA l.length)^[j]
            ((advance (⟨some l, l, 0, true, none⟩ : WalkState)).idx,
              (advance (⟨some l, l, 0, true, none⟩ : WalkState)).dirUp) =
            (stepA l.length)^[j + 1] (0, true) := by
          rw [hstep, ← Function.iterate_succ_apply]
        rw [hit, walkPair_fst l.length hk (j + 1)]
    · intro hk
      rw [hrun, htail, List.map_cons, List.map_map, List.replicate_succ]
      congr 1
      refine List.eq_replicate_iff.2 ⟨by simp, ?_⟩
      intro b hb
      simp only [List.mem_map, List.mem_range] at hb
      obtain ⟨j, _, hj⟩ := hb
      have hit : (stepA l.length)^[j]
          ((advance (⟨some l, l, 0, true, none⟩ : WalkState)).idx,
            (advance (⟨some l, l, 0, true, none⟩ : WalkState)).dirUp) =
          (stepA l.length)^[j + 1] (0, true) := by
        rw [hstep, ← Function.iterate_succ_apply]
      rw [← hj]
      simp only [Function.comp_apply, hit]
      rw [hk]
      obtain ⟨d2, hd2⟩ := iter_stepA_one (j + 1) true
      simp [hd2]

/-- Witness for C1: the C-major triad `[0, 4, 7]` over 7 beats walks
`0,1,2,1,0,1,2`; the one-tone chord `[5]` is constant over 5 beats. -/
theorem chord_walk_ping_pong_witness :
    ((runWalk walkInit (List.replicate 7 [(0 : ℤ), 4, 7])).map Prod.fst =
      (List.range 7).map (pingPongIdx 3)) ∧
    ((runWalk walkInit (List.replicate 5 [(5 : ℤ)])).map Prod.snd =
      List.replicate 5 ([(5 : ℤ)].getD 0 0)) :=
  ⟨(chord_walk_ping_pong [(0 : ℤ), 4, 7] 7 (by decide)).1 (by decide),
    (chord_walk_ping_pong [(5 : ℤ)] 5 (by decide)).2 (by decide)⟩

/-! ## Helper lemmas: the walk-state invariant -/

/-- Whenever `observe` says a pitch class is to be selected, the resulting
state has a coherent non-empty `order` and an in-range index. -/
lemma observe_good (s : WalkState) (pcs : List ℤ) (hInv : WalkInv s) (s1 : WalkState)
    (h : observe s pcs = some s1) :
    s1.prevPcset = some s1.order ∧ s1.order ≠ [] ∧ s1.idx < s1.order.length := by
  unfold observe at h
  by_cases hpcs : pcs = []
  · subst hpcs
    rw [if_pos rfl] at h
    cases hp : s.prevPcset with
    | none => rw [hp] at h; exact absurd h (by simp)
    | some l =>
      rw [hp] at h
      simp only [ne_eq, not_true_eq_false, if_false, hp] at h
      rcases hInv with hnone | ⟨h1, h2, h3⟩
      · rw [hnone] at hp; exact absurd hp (by simp)
      · have hs1 : s1 = s := (Option.some_injective _ h).symm
        subst hs1
        exact ⟨h1, h2, h3⟩
  · rw [if_neg hpcs] at h
    simp only at h
    by_cases hd : some pcs = s.prevPcset
    · rw [if_neg (by simp [hd])] at h
      have hs1 : s1 = s := (Option.some_injective _ h).symm
      subst hs1
      rcases hInv with hnone | ⟨h1, h2, h3⟩
      · rw [hnone] at hd; exact absurd hd (by simp)
      · exact ⟨h1, h2, h3⟩
    · rw [if_pos hd] at h
      have hs1 : s1 = { s with order := pcs, idx := 0, dirUp := true, prevPcset := some pcs } :=
        (Option.some_injective _ h).symm
      subst hs1
      exact ⟨rfl, hpcs, by simpa using List.length_pos.2 hpcs⟩

/-- The ping-pong advance keeps the index strictly below the order length. -/
lemma stepA_lt (k : ℕ) (i : ℕ) (d : Bool) (hi : i < k) : (stepA k (i, d)).1 < k := by
  cases d with
  | true =>
    rw [stepA_true]
    split_ifs with h1 h2 <;> simp <;> omega
  | false =>
    rw [stepA_false]
    split_ifs with h1 h2 <;> simp <;> omega

/-- Advancing preserves the walk-state invariant. -/
lemma advance_preserves (s : WalkState) (h1 : s.prevPcset = some s.order)
    (h2 : s.order ≠ []) (h3 : s.idx < s.order.length) : WalkInv (advance s) := by
  right
  refine ⟨?_, ?_, ?_⟩
  · rw [advance_prevPcset, advance_order]; exact h1
  · rw [advance_order]; exact h2
  · rw [advance_order, advance_idx]
    exact stepA_lt s.order.length s.idx s.dirUp h3

lemma walkInv_init : WalkInv walkInit := Or.inl rfl

/-- Every selection state reachable from an invariant state is good. -/
lemma selStates_good : ∀ (obs : List (List ℤ)) (s : WalkState), WalkInv s →
    ∀ s1 ∈ selStates s obs,
      s1.prevPcset = some s1.order ∧ s1.order ≠ [] ∧ s1.idx < s1.order.length := by
  intro obs
  induction obs with
  | nil => intro s _ s1 h; simp [selStates] at h
  | cons pcs rest ih =>
    intro s hInv s1 hmem
    simp only [selStates] at hmem
    cases hobs : observe s pcs with
    | none =>
      rw [hobs] at hmem
      exact ih s hInv s1 hmem
    | some s2 =>
      rw [hobs] at hmem
      have hg := observe_good s pcs hInv s2 hobs
      rcases List.mem_cons.1 hmem with rfl | hmem2
      · exact hg
      · exact ih (advance s2) (advance_preserves s2 hg.1 hg.2.1 hg.2.2) s1 hmem2

/-- C10: at every beat where a pitch class is selected, the walk state has a
non-empty `order` and `idx < len(order)`, for every observation sequence; so
the lookup `order[idx]` is always in range. -/
theorem walk_index_safety (obs : List (List ℤ)) (s1 : WalkState)
    (h : s1 ∈ selStates walkInit obs) :
    s1.order ≠ [] ∧ s1.idx < s1.order.length := by
  have hg := selStates_good obs walkInit walkInv_init s1 h
  exact ⟨hg.2.1, hg.2.2⟩

/-- Witness for C10 on the observation sequence `[[0,4,7], [], [2]]`. -/
theorem walk_index_safety_witness :
    (⟨some [(0 : ℤ), 4, 7], [(0 : ℤ), 4, 7], 0, true, none⟩ : WalkState).order ≠ [] ∧
    (⟨some [(0 : ℤ), 4, 7], [(0 : ℤ), 4, 7], 0, true, none⟩ : WalkState).idx <
      (⟨some [(0 : ℤ), 4, 7], [(0 : ℤ), 4, 7], 0, true, none⟩ : WalkState).order.length :=
  walk_index_safety [[(0 : ℤ), 4, 7], [], [(2 : ℤ)]] _ (by decide)

/-! ## C2: chord-change detection -/

/-- Sorting is injective on finsets of pitch classes. -/
lemma pcSort_inj (S T : Finset ℤ) (h : S.sort (· ≤ ·) = T.sort (· ≤ ·)) : S = T := by
  have hS := Finset.sort_toFinset (· ≤ ·) S
  have hT := Finset.sort_toFinset (· ≤ ·) T
  rw [← hS, ← hT, h]

lemma chord_pitch_classes_toFinset (notes : List Note) :
    (chord_pitch_classes notes).toFinset = pcFinset notes :=
  Finset.sort_toFinset _ _

lemma chord_pitch_classes_ne_nil (notes : List Note) (h : (pcFinset notes).Nonempty) :
    chord_pitch_classes notes ≠ [] := by
  intro hc
  have := Finset.length_sort (α := ℤ) (· ≤ ·) (s := pcFinset notes)
  rw [chord_pitch_classes] at hc
  rw [hc] at this
  simp only [List.length_nil] at this
  exact Finset.card_ne_zero_of_mem h.choose_spec this.symm

/-- C2: with a pitch-class set active (stored in canonical sorted form, as
the walk always stores it) and a non-empty observation, the walk resets —
`order` = observed sorted ascending, `idx = 0`, ascending, active set =
observed — if and only if the observed set differs from the active set;
observing an equal set leaves the state untouched. -/
theorem chord_change_detection (s : WalkState) (notes1 notes2 : List Note)
    (hprev : s.prevPcset = some (chord_pitch_classes notes1))
    (hne : (pcFinset notes2).Nonempty) :
    observe s (chord_pitch_classes notes2) =
      some (if pcFinset notes1 = pcFinset notes2 then s
        else { s with order := chord_pitch_classes notes2, idx := 0, dirUp := true,
                      prevPcset := some (chord_pitch_classes notes2) }) := by
  by_cases hEq : pcFinset notes1 = pcFinset notes2
  · rw [if_pos hEq]
    have : chord_pitch_classes notes1 = chord_pitch_classes notes2 := by
      rw [chord_pitch_classes, chord_pitch_classes, hEq]
    exact observe_self s _ (by rw [hprev, this])
  · rw [if_neg hEq]
    refine observe_reset s _ (chord_pitch_classes_ne_nil notes2 hne) ?_
    rw [hprev]
    intro hc
    exact hEq (pcSort_inj _ _ (Option.some_injective _ hc).symm)

/-- Witness for C2: active C major (from notes 60, 64, 67), observing D minor
(from notes 62, 65, 69) resets; the hypotheses are discharged on concrete
note lists. -/
theorem chord_change_detection_witness :
    observe (⟨some (chord_pitch_classes [⟨60, 0, 1, 85⟩, ⟨64, 0, 1, 85⟩, ⟨67, 0, 1, 85⟩]),
        chord_pitch_classes [⟨60, 0, 1, 85⟩, ⟨64, 0, 1, 85⟩, ⟨67, 0, 1, 85⟩], 0, true, none⟩ :
        WalkState)
      (chord_pitch_classes [⟨62, 0, 1, 85⟩, ⟨65, 0, 1, 85⟩, ⟨69, 0, 1, 85⟩]) =
    some (if pcFinset [⟨60, 0, 1, 85⟩, ⟨64, 0, 1, 85⟩, ⟨67, 0, 1, 85⟩] =
          pcFinset [⟨62, 0, 1, 85⟩, ⟨65, 0, 1, 85⟩, ⟨69, 0, 1, 85⟩] then
        (⟨some (chord_pitch_classes [⟨60, 0, 1, 85⟩, ⟨64, 0, 1, 85⟩, ⟨67, 0, 1, 85⟩]),
          chord_pitch_classes [⟨60, 0, 1, 85⟩, ⟨64, 0, 1, 85⟩, ⟨67, 0, 1, 85⟩], 0, true, none⟩ :
          WalkState)
      else
        { (⟨some (chord_pitch_classes [⟨60, 0, 1, 85⟩, ⟨64, 0, 1, 85⟩, ⟨67, 0, 1, 85⟩]),
            chord_pitch_classes [⟨60, 0, 1, 85⟩, ⟨64, 0, 1, 85⟩, ⟨67, 0, 1, 85⟩], 0, true, none⟩ :
            WalkState) with
          order := chord_pitch_classes [⟨62, 0, 1, 85⟩, ⟨65, 0, 1, 85⟩, ⟨69, 0, 1, 85⟩],
          idx := 0, dirUp := true,
          prevPcset := some (chord_pitch_classes [⟨62, 0, 1, 85⟩, ⟨65, 0, 1, 85⟩, ⟨69, 0, 1, 85⟩]) }) :=
  chord_change_detection _ _ _ rfl (by decide)

/-! ## C3: silence handling -/

/-- C3: on a beat whose observed pitch-class set is empty, the walk skips the
beat entirely (state unchanged, no note) when no chord has ever been active,
and otherwise behaves exactly as if the previously active set had been
observed. -/
theorem silence_sustains_or_skips (s : WalkState) (t0 t1 : ℚ) :
    (s.prevPcset = none → walkBeat s [] t0 t1 = (s, none)) ∧
    (∀ l, s.prevPcset = some l → walkBeat s [] t0 t1 = walkBeat s l t0 t1) := by
  constructor
  · intro h
    rw [walkBeat, observe_silence_none s h]
  · intro l h
    have h0 : observe s [] = some s := by
      unfold observe
      rw [if_pos rfl, h]
      simp [h]
    have h1 : observe s l = some s := observe_self s l h
    rw [walkBeat, walkBeat, h0, h1]

/-- Witness for C3 with an active chord `[3, 9]`. -/
theorem silence_sustains_or_skips_witness :
    (walkBeat walkInit [] 0 1 = (walkInit, none)) ∧
    (walkBeat (⟨some [(3 : ℤ), 9], [(3 : ℤ), 9], 1, false, some 39⟩ : WalkState) [] 0 1 =
      walkBeat (⟨some [(3 : ℤ), 9], [(3 : ℤ), 9], 1, false, some 39⟩ : WalkState) [(3 : ℤ), 9] 0 1) :=
  ⟨(silence_sustains_or_skips walkInit 0 1).1 rfl,
    (silence_sustains_or_skips _ 0 1).2 [(3 : ℤ), 9] rfl⟩

/-! ## C6: malformed intervals and the overlap predicate -/

/-- C6 counterexample: the zero-length note `(pitch 3, start 1, end 1)` has
`start ≥ end`, yet it is *not* excluded from the window `(0, 2)`: it passes
the overlap filter and contributes pitch class 3. -/
theorem malformed_note_contributes :
    ((⟨3, 1, 1, 85⟩ : Note).stop ≤ (⟨3, 1, 1, 85⟩ : Note).start) ∧
    notes_overlapping ⟨0, "harmony", false, [⟨3, 1, 1, 85⟩]⟩ 0 2 = [⟨3, 1, 1, 85⟩] ∧
    (3 : ℤ) ∈ chord_pitch_classes
      (notes_overlapping ⟨0, "harmony", false, [⟨3, 1, 1, 85⟩]⟩ 0 2) := by
  refine ⟨by norm_num, by decide, ?_⟩
  rw [show notes_overlapping ⟨0, "harmony", false, [⟨3, 1, 1, 85⟩]⟩ 0 2 = [⟨3, 1, 1, 85⟩]
    by decide]
  rw [chord_pitch_classes, Finset.mem_sort, pcFinset, List.mem_toFinset]
  simp only [List.map_cons, List.map_nil, List.mem_singleton]
  decide

/-- C6 (amended): every note — malformed or not — participates in a beat
window exactly according to the half-open overlap predicate
`note.start < window.end AND note.end > window.start`, and the pitch classes
of a window are exactly those of the notes satisfying the predicate. -/
theorem overlap_predicate_exact (inst : Instrument) (t0 t1 : ℚ) (n : Note) :
    (n ∈ notes_overlapping inst t0 t1 ↔ n ∈ inst.notes ∧ n.start < t1 ∧ n.stop > t0) ∧
    (∀ pc : ℤ, pc ∈ chord_pitch_classes (notes_overlapping inst t0 t1) ↔
      ∃ m ∈ inst.notes, m.start < t1 ∧ m.stop > t0 ∧ m.pitch % 12 = pc) := by
  constructor
  · rw [notes_overlapping, List.mem_filter]
    simp [decide_eq_true_eq, and_assoc]
  · intro pc
    rw [chord_pitch_classes, Finset.mem_sort, pcFinset, List.mem_toFinset, List.mem_map]
    constructor
    · rintro ⟨m, hm, rfl⟩
      rw [notes_overlapping, List.mem_filter] at hm
      simp only [decide_eq_true_eq] at hm
      exact ⟨m, hm.1, hm.2.1, hm.2.2, rfl⟩
    · rintro ⟨m, hm, h1, h2, rfl⟩
      refine ⟨m, ?_, rfl⟩
      rw [notes_overlapping, List.mem_filter]
      simp only [decide_eq_true_eq]
      exact ⟨hm, h1, h2⟩

/-! ## C7: beat-grid density and subdivision -/

lemma linspace_length (a b : ℚ) (num : ℕ) : (linspace a b num).length = num := by
  simp [linspace]

lemma getD_map_range {α : Type} (f : ℕ → α) (n i : ℕ) (d : α) (h : i < n) :
    ((List.range n).map f).getD i d = f i := by
  rw [List.getD_eq_getElem _ _ (by simpa using h)]
  simp

lemma linspace_getD (a b : ℚ) (num i : ℕ) (h : i < num) :
    (linspace a b num).getD i 0 = a + (i : ℚ) * ((b - a) / ((num : ℚ) - 1)) := by
  rw [linspace, getD_map_range _ _ _ _ h]

lemma linspace_dropLast (a b : ℚ) (d : ℕ) :
    (linspace a b (d + 1)).dropLast =
      (List.range d).map (fun (j : ℕ) => a + (j : ℚ) * ((b - a) / (((d + 1 : ℕ) : ℚ) - 1))) := by
  rw [linspace, List.range_succ, List.map_append]
  simp

lemma flatten_uniform_length (d : ℕ) :
    ∀ L : List (List ℚ), (∀ l ∈ L, l.length = d) → L.flatten.length = L.length * d := by
  intro L
  induction L with
  | nil => intro _; simp
  | cons x xs ih =>
    intro h
    simp only [List.flatten_cons, List.length_append, List.length_cons]
    rw [ih (fun l hl => h l (by simp [hl])), h x (by simp)]
    ring

lemma flatten_uniform_getD (d : ℕ) :
    ∀ (L : List (List ℚ)) (i j : ℕ), j < d → (∀ l ∈ L, l.length = d) → i < L.length →
      L.flatten.getD (i * d + j) 0 = (L.getD i []).getD j 0 := by
  intro L
  induction L with
  | nil => intro i j _ _ h; simp at h
  | cons x xs ih =>
    intro i j hj hall hi
    rw [List.flatten_cons]
    cases i with
    | zero =>
      rw [List.getD_append _ _ _ _ (by rw [hall x (by simp)]; omega)]
      simp
    | succ i =>
      rw [show (i + 1) * d + j = d + (i * d + j) by ring]
      rw [List.getD_append_right _ _ _ _ (by rw [hall x (by simp)]; omega)]
      rw [hall x (by simp), Nat.add_sub_cancel_left, List.getD_cons_succ]
      exact ih i j hj (fun l hl => hall l (by simp [hl])) (by simpa using hi)

lemma subdivide_blocks_spec (dens : ℕ) (beats : List ℚ) :
    ∀ l ∈ (List.range (beats.length - 1)).map (fun i =>
        (linspace (beats.getD i 0) (beats.getD (i + 1) 0) (dens + 1)).dropLast),
      l.length = dens := by
  intro l hl
  simp only [List.mem_map, List.mem_range] at hl
  obtain ⟨i, _, rfl⟩ := hl
  rw [linspace_dropLast]
  simp

/-- C7: the Beat Grid Builder doubles the density multiplier exactly when the
first declared meter has denominator 2, and subdivision replaces the grid by
`dens` equal linear-interpolation sub-steps per adjacent pair, keeping the
final boundary unchanged. -/
theorem beat_grid_density_and_subdivision :
    (∀ pm : Score,
      (effective_note_density pm = 2 * NOTE_DENSITY ↔
        ∃ ts rest, pm.timeSignatureChanges = ts :: rest ∧ ts.denominator = 2) ∧
      (effective_note_density pm = NOTE_DENSITY ∨
        effective_note_density pm = 2 * NOTE_DENSITY)) ∧
    (∀ (dens : ℕ) (beats : List ℚ), 1 ≤ dens →
      (subdivide_beats dens beats).length = dens * (beats.length - 1) + 1 ∧
      (subdivide_beats dens beats).getLastD 0 = beats.getLastD 0 ∧
      (∀ i j, i + 1 < beats.length → j < dens →
        (subdivide_beats dens beats).getD (i * dens + j) 0 =
          beats.getD i 0 +
            (j : ℚ) * ((beats.getD (i + 1) 0 - beats.getD i 0) / (dens : ℚ)))) := by
  constructor
  · intro pm
    cases hts : pm.timeSignatureChanges with
    | nil =>
      have he : effective_note_density pm = NOTE_DENSITY := by
        simp only [effective_note_density, hts]
      refine ⟨⟨fun h => absurd (he.symm.trans h) (by norm_num [NOTE_DENSITY]), ?_⟩, Or.inl he⟩
      rintro ⟨ts2, rest2, heq, _⟩
      exact absurd heq (by simp)
    | cons ts rest =>
      by_cases hden : ts.denominator = 2
      · have he : effective_note_density pm = NOTE_DENSITY * 2 := by
          simp only [effective_note_density, hts, if_pos hden]
        exact ⟨⟨fun _ => ⟨ts, rest, rfl, hden⟩, fun _ => by rw [he]; ring⟩,
          Or.inr (by rw [he]; ring)⟩
      · have he : effective_note_density pm = NOTE_DENSITY := by
          simp only [effective_note_density, hts, if_neg hden]
        refine ⟨⟨fun h => absurd (he.symm.trans h) (by norm_num [NOTE_DENSITY]), ?_⟩, Or.inl he⟩
        rintro ⟨ts2, rest2, heq, hd2⟩
        injection heq with h1 _
        refine absurd ?_ hden
        rw [h1]
        exact hd2
  · intro dens beats hd
    have hblocks := subdivide_blocks_spec dens beats
    have hlen : ((List.range (beats.length - 1)).map (fun i =>
        (linspace (beats.getD i 0) (beats.getD (i + 1) 0) (dens + 1)).dropLast)).flatten.length =
        (beats.length - 1) * dens := by
      rw [flatten_uniform_length dens _ hblocks]
      simp
    refine ⟨?_, ?_, ?_⟩
    · rw [subdivide_beats, List.length_append, hlen]
      simp [Nat.mul_comm]
    · rw [subdivide_beats]
      simp
    · intro i j hi hj
      rw [subdivide_beats]
      have hbound : i * dens + j < (beats.length - 1) * dens := by
        have h1 : i * dens + j < (i + 1) * dens := by rw [Nat.succ_mul]; omega
        have h2 : (i + 1) * dens ≤ (beats.length - 1) * dens :=
          Nat.mul_le_mul_right _ (by omega)
        omega
      rw [List.getD_append _ _ _ _ (by rw [hlen]; exact hbound)]
      rw [flatten_uniform_getD dens _ i j hj hblocks (by simp; omega)]
      rw [getD_map_range _ _ _ _ (by omega)]
      rw [linspace_dropLast, getD_map_range _ _ _ _ hj]
      push_cast
      ring

/-- Witness for C7: a 2/2 meter doubles the density, and subdividing
`[0, 1, 2]` with density 2 interpolates the midpoint of the second pair. -/
theorem beat_grid_density_and_subdivision_witness :
    (effective_note_density ⟨[], [⟨2, 2, 0⟩], [], []⟩ = 2 * NOTE_DENSITY ↔
      ∃ ts rest, (⟨[], [⟨2, 2, 0⟩], [], []⟩ : Score).timeSignatureChanges = ts :: rest ∧
        ts.denominator = 2) ∧
    (subdivide_beats 2 [0, 1, 2]).getD (1 * 2 + 1) 0 =
      ([0, 1, 2] : List ℚ).getD 1 0 +
        (1 : ℚ) * ((([0, 1, 2] : List ℚ).getD 2 0 - ([0, 1, 2] : List ℚ).getD 1 0) / (2 : ℚ)) :=
  ⟨(beat_grid_density_and_subdivision.1 ⟨[], [⟨2, 2, 0⟩], [], []⟩).1,
    (beat_grid_density_and_subdivision.2 2 [0, 1, 2] (by norm_num)).2.2 1 1 (by norm_num)
      (by norm_num)⟩

/-! ## C9: the average simultaneity score -/

lemma sum_map_range (g : ℕ → ℚ) : ∀ n : ℕ,
    ((List.range n).map g).sum = ∑ i ∈ Finset.range n, g i := by
  intro n
  induction n with
  | zero => simp
  | succ n ih =>
    rw [List.range_succ, List.map_append, List.sum_append, Finset.sum_range_succ, ih]
    simp

/-- What `avg_simultaneity` computes on a non-degenerate track: the mean over
the 511 adjacent pairs of the 512 sample points of the number of notes
overlapping each sub-interval. -/
lemma avg_simultaneity_eq_sum (inst : Instrument) (hne : inst.notes ≠ [])
    (hspan : minStart inst.notes < maxEnd inst.notes) :
    avg_simultaneity inst SLICES =
      (∑ i ∈ Finset.range 511,
        ((inst.notes.filter (fun n =>
          decide (n.start < minStart inst.notes + ((i : ℚ) + 1) *
              ((maxEnd inst.notes - minStart inst.notes) / 511) ∧
            n.stop > minStart inst.notes + (i : ℚ) *
              ((maxEnd inst.notes - minStart inst.notes) / 511)))).length : ℚ)) / 511 := by
  have hlt : ¬ (maxEnd inst.notes ≤ minStart inst.notes) := not_le.2 hspan
  simp only [avg_simultaneity]
  rw [if_neg hne, if_neg hlt, linspace_length]
  rw [show (SLICES : ℕ) = 512 from rfl, show (512 - 1 : ℕ) = 511 from rfl]
  rw [show ((((512 : ℕ) : ℤ) - 1 : ℤ) : ℚ) = 511 by norm_num]
  rw [sum_map_range]
  congr 1
  apply Finset.sum_congr rfl
  intro i hi
  have hi' : i < 511 := Finset.mem_range.1 hi
  rw [linspace_getD _ _ _ _ (by omega), linspace_getD _ _ _ _ (by omega)]
  push_cast
  norm_num

/-- What `avg_simultaneity_pointwise` computes on a non-degenerate track: the
mean over the 512 sample points of the number of notes containing each
point. -/
lemma avg_pointwise_eq_sum (inst : Instrument) (hne : inst.notes ≠ [])
    (hspan : minStart inst.notes < maxEnd inst.notes) :
    avg_simultaneity_pointwise inst SLICES =
      (∑ i ∈ Finset.range 512,
        ((inst.notes.filter (fun n =>
          decide (n.start ≤ minStart inst.notes + (i : ℚ) *
              ((maxEnd inst.notes - minStart inst.notes) / 511) ∧
            minStart inst.notes + (i : ℚ) *
              ((maxEnd inst.notes - minStart inst.notes) / 511) ≤ n.stop))).length : ℚ)) /
        512 := by
  have hlt : ¬ (maxEnd inst.notes ≤ minStart inst.notes) := not_le.2 hspan
  simp only [avg_simultaneity_pointwise]
  rw [if_neg hne, if_neg hlt, linspace_length]
  rw [show (SLICES : ℕ) = 512 from rfl]
  rw [show (((512 : ℕ) : ℚ)) = 512 by norm_num]
  rw [linspace, List.map_map, sum_map_range]
  congr 1
  apply Finset.sum_congr rfl
  intro i hi
  simp only [Function.comp_apply]
  push_cast
  norm_num

/-- C9 (amended): for every track with at least one note and a positive time
span, `avg_simultaneity` equals the mean, over the 511 sub-intervals between
consecutive sample points of the 512-point linspace over the track's span, of
the count of notes overlapping each sub-interval. -/
theorem avg_simultaneity_subinterval_mean (inst : Instrument) (hne : inst.notes ≠ [])
    (hspan : minStart inst.notes < maxEnd inst.notes) :
    avg_simultaneity inst SLICES =
      (∑ i ∈ Finset.range 511,
        ((inst.notes.filter (fun n =>
          decide (n.start < minStart inst.notes + ((i : ℚ) + 1) *
              ((maxEnd inst.notes - minStart inst.notes) / 511) ∧
            n.stop > minStart inst.notes + (i : ℚ) *
              ((maxEnd inst.notes - minStart inst.notes) / 511)))).length : ℚ)) / 511 :=
  avg_simultaneity_eq_sum inst hne hspan

/-- Witness for C9 on a one-note track. -/
theorem avg_simultaneity_subinterval_mean_witness :
    avg_simultaneity ⟨0, "harmony", false, [⟨60, 0, 4, 80⟩]⟩ SLICES =
      (∑ i ∈ Finset.range 511,
        (((⟨0, "harmony", false, [⟨60, 0, 4, 80⟩]⟩ : Instrument).notes.filter (fun n =>
          decide (n.start < minStart (⟨0, "harmony", false, [⟨60, 0, 4, 80⟩]⟩ : Instrument).notes +
              ((i : ℚ) + 1) *
              ((maxEnd (⟨0, "harmony", false, [⟨60, 0, 4, 80⟩]⟩ : Instrument).notes -
                minStart (⟨0, "harmony", false, [⟨60, 0, 4, 80⟩]⟩ : Instrument).notes) / 511) ∧
            n.stop > minStart (⟨0, "harmony", false, [⟨60, 0, 4, 80⟩]⟩ : Instrument).notes +
              (i : ℚ) *
              ((maxEnd (⟨0, "harmony", false, [⟨60, 0, 4, 80⟩]⟩ : Instrument).notes -
                minStart (⟨0, "harmony", false, [⟨60, 0, 4, 80⟩]⟩ : Instrument).notes) /
                511)))).length : ℚ)) / 511 :=
  avg_simultaneity_subinterval_mean ⟨0, "harmony", false, [⟨60, 0, 4, 80⟩]⟩ (by decide)
    (by norm_num [minStart, maxEnd])

/-- C9 counterexample: on the two-note track `[0,1022]`, `[1,2]`, the code's
sub-interval average is `512/511` while the spec's sample-point-containment
mean is `513/512`: the second note overlaps the first sub-interval `(0, 2)`
without containing the sample point 0, and contains the sample point 2
without overlapping the second sub-interval. -/
theorem avg_simultaneity_counterexample :
    avg_simultaneity ⟨0, "harmony", false, [⟨60, 0, 1022, 80⟩, ⟨64, 1, 2, 80⟩]⟩ SLICES =
      512 / 511 ∧
    avg_simultaneity_pointwise ⟨0, "harmony", false, [⟨60, 0, 1022, 80⟩, ⟨64, 1, 2, 80⟩]⟩
        SLICES = 513 / 512 ∧
    avg_simultaneity ⟨0, "harmony", false, [⟨60, 0, 1022, 80⟩, ⟨64, 1, 2, 80⟩]⟩ SLICES ≠
      avg_simultaneity_pointwise ⟨0, "harmony", false, [⟨60, 0, 1022, 80⟩, ⟨64, 1, 2, 80⟩]⟩
        SLICES := by
  have hne : (⟨0, "harmony", false, [⟨60, 0, 1022, 80⟩, ⟨64, 1, 2, 80⟩]⟩ :
      Instrument).notes ≠ [] := by decide
  have hmin : minStart [⟨60, 0, 1022, 80⟩, ⟨64, 1, 2, 80⟩] = 0 := by
    norm_num [minStart, min_def]
  have hmax : maxEnd [⟨60, 0, 1022, 80⟩, ⟨64, 1, 2, 80⟩] = 1022 := by
    norm_num [maxEnd, max_def]
  have hspan : minStart (⟨0, "harmony", false, [⟨60, 0, 1022, 80⟩, ⟨64, 1, 2, 80⟩]⟩ :
      Instrument).notes < maxEnd (⟨0, "harmony", false,
      [⟨60, 0, 1022, 80⟩, ⟨64, 1, 2, 80⟩]⟩ : Instrument).notes := by
    show minStart [⟨60, 0, 1022, 80⟩, ⟨64, 1, 2, 80⟩] <
      maxEnd [⟨60, 0, 1022, 80⟩, ⟨64, 1, 2, 80⟩]
    rw [hmin, hmax]
    norm_num
  have h1 := avg_simultaneity_eq_sum _ hne hspan
  have h2 := avg_pointwise_eq_sum _ hne hspan
  have hnotes : (⟨0, "harmony", false, [⟨60, 0, 1022, 80⟩, ⟨64, 1, 2, 80⟩]⟩ :
      Instrument).notes = [⟨60, 0, 1022, 80⟩, ⟨64, 1, 2, 80⟩] := rfl
  rw [hnotes, hmin, hmax] at h1 h2
  have hsum1 : (∑ i ∈ Finset.range 511,
      (([(⟨60, 0, 1022, 80⟩ : Note), ⟨64, 1, 2, 80⟩].filter (fun n =>
        decide (n.start < 0 + ((i : ℚ) + 1) * ((1022 - 0) / 511) ∧
          n.stop > 0 + (i : ℚ) * ((1022 - 0) / 511)))).length : ℚ)) = 512 := by
    have hcount : ∀ i ∈ Finset.range 511,
        (([(⟨60, 0, 1022, 80⟩ : Note), ⟨64, 1, 2, 80⟩].filter (fun n =>
          decide (n.start < 0 + ((i : ℚ) + 1) * ((1022 - 0) / 511) ∧
            n.stop > 0 + (i : ℚ) * ((1022 - 0) / 511)))).length : ℚ) =
          1 + (if i = 0 then 1 else 0) := by
      intro i hi
      have hi' : i < 511 := Finset.mem_range.1 hi
      have hiq : (i : ℚ) < 511 := by exact_mod_cast hi'
      have hiq0 : (0 : ℚ) ≤ (i : ℚ) := Nat.cast_nonneg i
      have e1 : (0 : ℚ) + ((i : ℚ) + 1) * ((1022 - 0) / 511) = 2 * (i : ℚ) + 2 := by
        norm_num; ring
      have e2 : (0 : ℚ) + (i : ℚ) * ((1022 - 0) / 511) = 2 * (i : ℚ) := by
        norm_num; ring
      rw [e1, e2]
      simp only [List.filter_cons, List.filter_nil, decide_eq_true_eq]
      rw [if_pos (show (⟨60, 0, 1022, 80⟩ : Note).start < 2 * (i : ℚ) + 2 ∧
          (⟨60, 0, 1022, 80⟩ : Note).stop > 2 * (i : ℚ) by
        constructor
        · show (0 : ℚ) < 2 * (i : ℚ) + 2
          linarith
        · show (1022 : ℚ) > 2 * (i : ℚ)
          linarith)]
      by_cases h0 : i = 0
      · subst h0
        rw [if_pos (show (⟨64, 1, 2, 80⟩ : Note).start < 2 * ((0 : ℕ) : ℚ) + 2 ∧
            (⟨64, 1, 2, 80⟩ : Note).stop > 2 * ((0 : ℕ) : ℚ) by
          constructor
          · show (1 : ℚ) < 2 * ((0 : ℕ) : ℚ) + 2
            norm_num
          · show (2 : ℚ) > 2 * ((0 : ℕ) : ℚ)
            norm_num)]
        norm_num
      · have h1i : 1 ≤ i := Nat.one_le_iff_ne_zero.2 h0
        have h1iq : (1 : ℚ) ≤ (i : ℚ) := by exact_mod_cast h1i
        rw [if_neg (show ¬ ((⟨64, 1, 2, 80⟩ : Note).start < 2 * (i : ℚ) + 2 ∧
            (⟨64, 1, 2, 80⟩ : Note).stop > 2 * (i : ℚ)) by
          rintro ⟨-, hB⟩
          have : (2 : ℚ) > 2 * (i : ℚ) := hB
          linarith)]
        simp [h0]
    rw [Finset.sum_congr rfl hcount, Finset.sum_add_distrib, Finset.sum_const,
      Finset.card_range, Finset.sum_ite_eq' (Finset.range 511) 0 (fun _ => (1 : ℚ))]
    norm_num
  have hsum2 : (∑ i ∈ Finset.range 512,
      (([(⟨60, 0, 1022, 80⟩ : Note), ⟨64, 1, 2, 80⟩].filter (fun n =>
        decide (n.start ≤ 0 + (i : ℚ) * ((1022 - 0) / 511) ∧
          0 + (i : ℚ) * ((1022 - 0) / 511) ≤ n.stop))).length : ℚ)) = 513 := by
    have hcount : ∀ i ∈ Finset.range 512,
        (([(⟨60, 0, 1022, 80⟩ : Note), ⟨64, 1, 2, 80⟩].filter (fun n =>
          decide (n.start ≤ 0 + (i : ℚ) * ((1022 - 0) / 511) ∧
            0 + (i : ℚ) * ((1022 - 0) / 511) ≤ n.stop))).length : ℚ) =
          1 + (if i = 1 then 1 else 0) := by
      intro i hi
      have hi' : i < 512 := Finset.mem_range.1 hi
      have hiq : (i : ℚ) ≤ 511 := by
        have : i ≤ 511 := by omega
        exact_mod_cast this
      have hiq0 : (0 : ℚ) ≤ (i : ℚ) := Nat.cast_nonneg i
      have e2 : (0 : ℚ) + (i : ℚ) * ((1022 - 0) / 511) = 2 * (i : ℚ) := by
        norm_num; ring
      rw [e2]
      simp only [List.filter_cons, List.filter_nil, decide_eq_true_eq]
      rw [if_pos (show (⟨60, 0, 1022, 80⟩ : Note).start ≤ 2 * (i : ℚ) ∧
          2 * (i : ℚ) ≤ (⟨60, 0, 1022, 80⟩ : Note).stop by
        constructor
        · show (0 : ℚ) ≤ 2 * (i : ℚ)
          linarith
        · show 2 * (i : ℚ) ≤ (1022 : ℚ)
          linarith)]
      by_cases h1i : i = 1
      · subst h1i
        rw [if_pos (show (⟨64, 1, 2, 80⟩ : Note).start ≤ 2 * ((1 : ℕ) : ℚ) ∧
            2 * ((1 : ℕ) : ℚ) ≤ (⟨64, 1, 2, 80⟩ : Note).stop by
          constructor
          · show (1 : ℚ) ≤ 2 * ((1 : ℕ) : ℚ)
            norm_num
          · show 2 * ((1 : ℕ) : ℚ) ≤ (2 : ℚ)
            norm_num)]
        norm_num
      · rw [if_neg (show ¬ ((⟨64, 1, 2, 80⟩ : Note).start ≤ 2 * (i : ℚ) ∧
            2 * (i : ℚ) ≤ (⟨64, 1, 2, 80⟩ : Note).stop) by
          rintro ⟨hBs, hBe⟩
          have hs : (1 : ℚ) ≤ 2 * (i : ℚ) := hBs
          have he : 2 * (i : ℚ) ≤ (2 : ℚ) := hBe
          have hge1 : (1 : ℕ) ≤ i := by
            by_contra hc
            have : i = 0 := by omega
            subst this
            norm_num at hs
          have hle1 : (i : ℚ) ≤ 1 := by linarith
          have : i ≤ 1 := by exact_mod_cast hle1
          exact h1i (by omega))]
        simp [h1i]
    rw [Finset.sum_congr rfl hcount, Finset.sum_add_distrib, Finset.sum_const,
      Finset.card_range, Finset.sum_ite_eq' (Finset.range 512) 1 (fun _ => (1 : ℚ))]
    norm_num
  rw [hsum1] at h1
  rw [hsum2] at h2
  refine ⟨h1, h2, ?_⟩
  rw [h1, h2]
  norm_num

/-! ## C5: track-selector helper lemmas -/

/-- First-match semantics of `findIdx?`, with the running start index. -/
lemma findIdx?_go_spec {α : Type} (p : α → Bool) :
    ∀ (l : List α) (s i : ℕ), List.findIdx? p l s = some i →
      s ≤ i ∧ i - s < l.length ∧
      (∃ x, l[i - s]? = some x ∧ p x = true) ∧
      (∀ j y, j < i - s → l[j]? = some y → p y = false) := by
  intro l
  induction l with
  | nil =>
    intro s i h
    rw [List.findIdx?_nil] at h
    exact absurd h (by simp)
  | cons a as ih =>
    intro s i h
    rw [List.findIdx?_cons] at h
    by_cases hp : p a = true
    · rw [if_pos hp] at h
      have hsi : s = i := Option.some_injective _ h
      subst hsi
      refine ⟨le_rfl, by simp, ⟨a, by simp, hp⟩, ?_⟩
      intro j y hj
      omega
    · rw [if_neg hp] at h
      obtain ⟨hs, hlt, ⟨x, hx, hpx⟩, hfirst⟩ := ih (s + 1) i h
      refine ⟨by omega, by simp only [List.length_cons]; omega, ⟨x, ?_, hpx⟩, ?_⟩
      · rw [show i - s = (i - (s + 1)) + 1 by omega, List.getElem?_cons_succ]
        exact hx
      · intro j y hj hy
        cases j with
        | zero =>
          rw [List.getElem?_cons_zero] at hy
          have : y = a := (Option.some_injective _ hy).symm
          subst this
          exact Bool.eq_false_iff.2 hp
        | succ j =>
          rw [List.getElem?_cons_succ] at hy
          exact hfirst j y (by omega) hy

/-- First-match semantics of `findIdx?` from the default start index 0. -/
lemma findIdx?_zero_spec {α : Type} (p : α → Bool) (l : List α) (i : ℕ)
    (h : List.findIdx? p l = some i) :
    (∃ x, l[i]? = some x ∧ p x = true) ∧
      ∀ j y, j < i → l[j]? = some y → p y = false := by
  obtain ⟨-, -, h2, h3⟩ := findIdx?_go_spec p l 0 i h
  simpa using ⟨h2, h3⟩

/-- Nonnegativity of `avg_simultaneity` with the default 512 slices. -/
lemma avg_simultaneity_nonneg (inst : Instrument) : 0 ≤ avg_simultaneity inst SLICES := by
  simp only [avg_simultaneity]
  by_cases h1 : inst.notes = []
  · rw [if_pos h1]
  · rw [if_neg h1]
    by_cases h2 : maxEnd inst.notes ≤ minStart inst.notes
    · rw [if_pos h2]
    · rw [if_neg h2]
      apply div_nonneg
      · apply List.sum_nonneg
        intro x hx
        simp only [List.mem_map] at hx
        obtain ⟨i, -, rfl⟩ := hx
        positivity
      · rw [linspace_length]
        norm_num [SLICES]

/-- The polyphony fold never forgets an already-chosen index. -/
lemma fold_poly_stays_some :
    ∀ (pairs : List (ℕ × Instrument)) (acc : Option ℕ × ℚ) (k : ℕ), acc.1 = some k →
      ∃ k2, (pairs.foldl (fun best p =>
        let score := avg_simultaneity p.2 SLICES
        if score > best.2 ∧ p.2.notes ≠ [] then (some p.1, score) else best) acc).1 = some k2 := by
  intro pairs
  induction pairs with
  | nil => intro acc k h; exact ⟨k, h⟩
  | cons q qs ih =>
    intro acc k h
    simp only [List.foldl_cons]
    by_cases hc : avg_simultaneity q.2 SLICES > acc.2 ∧ q.2.notes ≠ []
    · rw [if_pos hc]
      exact ih _ q.1 rfl
    · rw [if_neg hc]
      exact ih _ k h

/-- If the polyphony fold returns no index, the accumulator was never
replaced and no pair could beat it. -/
lemma fold_poly_none :
    ∀ (pairs : List (ℕ × Instrument)) (acc : Option ℕ × ℚ),
      ((pairs.foldl (fun best p =>
        let score := avg_simultaneity p.2 SLICES
        if score > best.2 ∧ p.2.notes ≠ [] then (some p.1, score) else best) acc).1 = none) →
      (pairs.foldl (fun best p =>
        let score := avg_simultaneity p.2 SLICES
        if score > best.2 ∧ p.2.notes ≠ [] then (some p.1, score) else best) acc) = acc ∧
        ∀ p ∈ pairs, ¬(avg_simultaneity p.2 SLICES > acc.2 ∧ p.2.notes ≠ []) := by
  intro pairs
  induction pairs with
  | nil => intro acc h; exact ⟨rfl, by simp⟩
  | cons q qs ih =>
    intro acc h
    simp only [List.foldl_cons] at h ⊢
    by_cases hc : avg_simultaneity q.2 SLICES > acc.2 ∧ q.2.notes ≠ []
    · exfalso
      rw [if_pos hc] at h
      obtain ⟨k2, hk2⟩ := fold_poly_stays_some qs (some q.1, avg_simultaneity q.2 SLICES)
        q.1 rfl
      rw [h] at hk2
      exact absurd hk2 (by simp)
    · rw [if_neg hc] at h ⊢
      obtain ⟨heq, hall⟩ := ih acc h
      refine ⟨heq, ?_⟩
      intro p hp
      rcases List.mem_cons.1 hp with rfl | hp2
      · exact hc
      · exact hall p hp2

/-- The final best score of the polyphony fold dominates the accumulator and
every noted pair. -/
lemma fold_poly_score_ge :
    ∀ (pairs : List (ℕ × Instrument)) (acc : Option ℕ × ℚ),
      acc.2 ≤ (pairs.foldl (fun best p =>
        let score := avg_simultaneity p.2 SLICES
        if score > best.2 ∧ p.2.notes ≠ [] then (some p.1, score) else best) acc).2 ∧
      ∀ p ∈ pairs, p.2.notes ≠ [] →
        avg_simultaneity p.2 SLICES ≤ (pairs.foldl (fun best p =>
          let score := avg_simultaneity p.2 SLICES
          if score > best.2 ∧ p.2.notes ≠ [] then (some p.1, score) else best) acc).2 := by
  intro pairs
  induction pairs with
  | nil => intro acc; exact ⟨le_rfl, by simp⟩
  | cons q qs ih =>
    intro acc
    simp only [List.foldl_cons]
    by_cases hc : avg_simultaneity q.2 SLICES > acc.2 ∧ q.2.notes ≠ []
    · rw [if_pos hc]
      obtain ⟨h1, h2⟩ := ih (some q.1, avg_simultaneity q.2 SLICES)
      refine ⟨le_trans (le_of_lt hc.1) h1, ?_⟩
      intro p hp hnotes
      rcases List.mem_cons.1 hp with rfl | hp2
      · exact h1
      · exact h2 p hp2 hnotes
    · rw [if_neg hc]
      obtain ⟨h1, h2⟩ := ih acc
      refine ⟨h1, ?_⟩
      intro p hp hnotes
      rcases List.mem_cons.1 hp with rfl | hp2
      · have : ¬ avg_simultaneity p.2 SLICES > acc.2 := fun hgt => hc ⟨hgt, hnotes⟩
        exact le_trans (not_lt.1 this) h1
      · exact h2 p hp2 hnotes

/-- If the polyphony fold returns an index, that index points at a noted
instrument whose score is the final best score. -/
lemma fold_poly_achieves (insts : List Instrument) :
    ∀ (pairs : List (ℕ × Instrument)) (acc : Option ℕ × ℚ),
      (∀ p ∈ pairs, insts[p.1]? = some p.2) →
      (acc.1 = none ∨ ∃ k t, acc.1 = some k ∧ insts[k]? = some t ∧ t.notes ≠ [] ∧
        avg_simultaneity t SLICES = acc.2) →
      (∀ k, (pairs.foldl (fun best p =>
        let score := avg_simultaneity p.2 SLICES
        if score > best.2 ∧ p.2.notes ≠ [] then (some p.1, score) else best) acc).1 = some k →
        ∃ t, insts[k]? = some t ∧ t.notes ≠ [] ∧
          avg_simultaneity t SLICES = (pairs.foldl (fun best p =>
            let score := avg_simultaneity p.2 SLICES
            if score > best.2 ∧ p.2.notes ≠ [] then (some p.1, score) else best) acc).2) := by
  intro pairs
  induction pairs with
  | nil =>
    intro acc hpg hinv k hk
    simp only [List.foldl_nil] at hk ⊢
    rcases hinv with hnone | ⟨k0, t, hk0, ht, hn, hs⟩
    · rw [hnone] at hk; exact absurd hk (by simp)
    · rw [hk0] at hk
      have : k0 = k := Option.some_injective _ hk
      subst this
      exact ⟨t, ht, hn, hs⟩
  | cons q qs ih =>
    intro acc hpg hinv k hk
    simp only [List.foldl_cons] at hk ⊢
    by_cases hc : avg_simultaneity q.2 SLICES > acc.2 ∧ q.2.notes ≠ []
    · rw [if_pos hc] at hk ⊢
      exact ih _ (fun p hp => hpg p (by simp [hp]))
        (Or.inr ⟨q.1, q.2, rfl, hpg q (by simp), hc.2, rfl⟩) k hk
    · rw [if_neg hc] at hk ⊢
      exact ih acc (fun p hp => hpg p (by simp [hp])) hinv k hk

/-- Fallback step 3: `mostPolyphonicIdx` returns the first index achieving the maximal
`avg_simultaneity` score among instruments with notes. -/
lemma mostPoly_some (insts : List Instrument) (i : ℕ) (h : mostPolyphonicIdx insts = some i) :
    ∃ t, insts[i]? = some t ∧ t.notes ≠ [] ∧
      ∀ y ∈ insts, y.notes ≠ [] → avg_simultaneity y SLICES ≤ avg_simultaneity t SLICES := by
  unfold mostPolyphonicIdx at h
  have hpg : ∀ p ∈ insts.enum, insts[p.1]? = some p.2 := by
    intro p hp
    exact List.mem_enum_iff_getElem?.1 hp
  obtain ⟨t, ht, hn, hs⟩ :=
    fold_poly_achieves insts insts.enum ((none, -1) : Option ℕ × ℚ) hpg (Or.inl rfl) i h
  refine ⟨t, ht, hn, ?_⟩
  intro y hy hynotes
  obtain ⟨j, hj⟩ := List.getElem?_of_mem hy
  have hpair : ((j, y) : ℕ × Instrument) ∈ insts.enum := List.mem_enum_iff_getElem?.2 hj
  have hge := (fold_poly_score_ge insts.enum ((none, -1) : Option ℕ × ℚ)).2 (j, y) hpair hynotes
  rw [hs]
  exact hge

/-- If `mostPolyphonicIdx` finds nothing, every instrument is empty. -/
lemma mostPoly_none (insts : List Instrument) (h : mostPolyphonicIdx insts = none) :
    ∀ y ∈ insts, y.notes = [] := by
  intro y hy
  by_contra hynotes
  unfold mostPolyphonicIdx at h
  obtain ⟨-, hall⟩ := fold_poly_none insts.enum ((none, -1) : Option ℕ × ℚ) h
  obtain ⟨j, hj⟩ := List.getElem?_of_mem hy
  have hpair : ((j, y) : ℕ × Instrument) ∈ insts.enum := List.mem_enum_iff_getElem?.2 hj
  apply hall (j, y) hpair
  refine ⟨lt_of_lt_of_le (by norm_num) (avg_simultaneity_nonneg y), hynotes⟩

/-- The success path of `add_bassline`: chords track found with notes. -/
lemma add_bassline_success (pm : Score) (pref : String) (ci : ℕ) (ch : Instrument)
    (h1 : resolveChordsIdx pm pref = some ci) (h2 : pm.instruments[ci]? = some ch)
    (h3 : ch.notes ≠ []) :
    add_bassline pm pref = { pm with instruments :=
      (pm.instruments.set ci (scale_instrument_velocity ch CHORD_VEL_SCALE)) ++
        [bassInstrument (bassRun (scale_instrument_velocity ch CHORD_VEL_SCALE) walkInit
          (computeBeats pm (scale_instrument_velocity ch CHORD_VEL_SCALE)))] } := by
  unfold add_bassline
  simp only [h1, h2]
  rw [if_neg h3]

/-- C5 (amended): the Track Selector resolves in the fixed order (exact
prefix, fuzzy substring, maximal average simultaneity among noted tracks),
and `add_bassline` returns the Score unmodified exactly when resolution fails
or the resolved track has no notes; if the track collection is empty or no
track has notes this always happens (the converse fails: see the
counterexample). -/
theorem track_selector_resolution (pm : Score) (pref : String) :
    (add_bassline pm pref = pm ↔ noHarmony pm pref = true) ∧
    ((pm.instruments = [] ∨ ∀ t ∈ pm.instruments, t.notes = []) →
      add_bassline pm pref = pm) ∧
    (∀ i, resolveChordsIdx pm pref = some i →
      ∃ t, pm.instruments[i]? = some t ∧
        ((isChordPrefMatch pref t = true ∧
            ∀ j y, j < i → pm.instruments[j]? = some y → isChordPrefMatch pref y = false) ∨
         (isChordFuzzyMatch t = true ∧
            (∀ y ∈ pm.instruments, isChordPrefMatch pref y = false) ∧
            ∀ j y, j < i → pm.instruments[j]? = some y → isChordFuzzyMatch y = false) ∨
         (t.notes ≠ [] ∧
            (∀ y ∈ pm.instruments, isChordPrefMatch pref y = false) ∧
            (∀ y ∈ pm.instruments, isChordFuzzyMatch y = false) ∧
            ∀ y ∈ pm.instruments, y.notes ≠ [] →
              avg_simultaneity y SLICES ≤ avg_simultaneity t SLICES))) := by
  have hiff : add_bassline pm pref = pm ↔ noHarmony pm pref = true := by
    constructor
    · intro hEq
      by_contra hNH
      unfold noHarmony at hNH
      cases hres : resolveChordsIdx pm pref with
      | none => simp only [hres] at hNH; exact hNH trivial
      | some ci =>
        simp only [hres] at hNH
        cases hget : pm.instruments[ci]? with
        | none => simp only [hget] at hNH; exact hNH trivial
        | some ch =>
          simp only [hget] at hNH
          have hnotes : ch.notes ≠ [] := by
            intro hc
            exact hNH (by simp [hc])
          have hsucc := add_bassline_success pm pref ci ch hres hget hnotes
          rw [hsucc] at hEq
          have hlen := congrArg (fun s : Score => s.instruments.length) hEq
          simp only [List.length_append, List.length_set, List.length_cons,
            List.length_nil] at hlen
          omega
    · intro hNH
      unfold noHarmony at hNH
      unfold add_bassline
      cases hres : resolveChordsIdx pm pref with
      | none => simp only [hres]
      | some ci =>
        simp only [hres] at hNH
        simp only [hres]
        cases hget : pm.instruments[ci]? with
        | none => simp only [hget]
        | some ch =>
          simp only [hget] at hNH
          simp only [hget]
          rw [if_pos (by simpa using hNH)]
  refine ⟨hiff, ?_, ?_⟩
  · intro hOr
    apply hiff.2
    unfold noHarmony
    cases hres : resolveChordsIdx pm pref with
    | none => rfl
    | some ci =>
      cases hget : pm.instruments[ci]? with
      | none => simp [hget]
      | some ch =>
        have hmem : ch ∈ pm.instruments := List.getElem?_mem hget
        rcases hOr with hnil | hall
        · rw [hnil] at hmem
          exact absurd hmem (by simp)
        · simp [hget, hall ch hmem]
  · intro i hres
    unfold resolveChordsIdx at hres
    cases h1 : pm.instruments.findIdx? (isChordPrefMatch pref) with
    | some j =>
      rw [h1] at hres
      simp only [Option.some.injEq] at hres
      subst hres
      obtain ⟨⟨x, hx, hpx⟩, hfirst⟩ := findIdx?_zero_spec _ _ j h1
      exact ⟨x, hx, Or.inl ⟨hpx, hfirst⟩⟩
    | none =>
      rw [h1] at hres
      have hprefall : ∀ y ∈ pm.instruments, isChordPrefMatch pref y = false :=
        List.findIdx?_eq_none_iff.1 h1
      cases h2 : pm.instruments.findIdx? isChordFuzzyMatch with
      | some j =>
        rw [h2] at hres
        simp only [Option.some.injEq] at hres
        subst hres
        obtain ⟨⟨x, hx, hpx⟩, hfirst⟩ := findIdx?_zero_spec _ _ j h2
        exact ⟨x, hx, Or.inr (Or.inl ⟨hpx, hprefall, hfirst⟩)⟩
      | none =>
        rw [h2] at hres
        have hfuzzall : ∀ y ∈ pm.instruments, isChordFuzzyMatch y = false :=
          List.findIdx?_eq_none_iff.1 h2
        obtain ⟨t, ht, hn, hmax⟩ := mostPoly_some _ i hres
        exact ⟨t, ht, Or.inr (Or.inr ⟨hn, hprefall, hfuzzall, hmax⟩)⟩

/-- Witness for C5 at a concrete score whose prefix-matched track is chosen. -/
theorem track_selector_resolution_witness :
    add_bassline ⟨[⟨0, "Piano, Chords: A", false, []⟩,
        ⟨0, "Other", false, [⟨60, 0, 1, 85⟩]⟩], [], [0, 1], []⟩ "Piano, Chords:" =
      (⟨[⟨0, "Piano, Chords: A", false, []⟩,
        ⟨0, "Other", false, [⟨60, 0, 1, 85⟩]⟩], [], [0, 1], []⟩ : Score) ↔
    noHarmony ⟨[⟨0, "Piano, Chords: A", false, []⟩,
        ⟨0, "Other", false, [⟨60, 0, 1, 85⟩]⟩], [], [0, 1], []⟩ "Piano, Chords:" = true :=
  (track_selector_resolution _ "Piano, Chords:").1

/-- C5 counterexample: a score whose prefix-matched chords track is empty
while another track has notes.  `add_bassline` returns the score unmodified
(no harmony reported) even though the track collection is non-empty and a
track has notes — refuting the claimed "if and only if". -/
theorem no_harmony_despite_notes :
    add_bassline ⟨[⟨0, "Piano, Chords: A", false, []⟩,
        ⟨0, "Other", false, [⟨60, 0, 1, 85⟩]⟩], [], [0, 1], []⟩ "Piano, Chords:" =
      (⟨[⟨0, "Piano, Chords: A", false, []⟩,
        ⟨0, "Other", false, [⟨60, 0, 1, 85⟩]⟩], [], [0, 1], []⟩ : Score) ∧
    (⟨[⟨0, "Piano, Chords: A", false, []⟩,
        ⟨0, "Other", false, [⟨60, 0, 1, 85⟩]⟩], [], [0, 1], []⟩ : Score).instruments ≠ [] ∧
    ∃ t ∈ (⟨[⟨0, "Piano, Chords: A", false, []⟩,
        ⟨0, "Other", false, [⟨60, 0, 1, 85⟩]⟩], [], [0, 1], []⟩ : Score).instruments,
      t.notes ≠ [] :=
  ⟨rfl, by decide, ⟨⟨0, "Other", false, [⟨60, 0, 1, 85⟩]⟩, by decide, by decide⟩⟩

/-! ## C8: the Track Emitter -/

/-- An emitted beat note carries the fixed velocity and the exact
start/duration formula. -/
lemma walkBeat_note (s : WalkState) (pcs : List ℤ) (t0 t1 : ℚ) (s2 : WalkState) (note : Note)
    (h : walkBeat s pcs t0 t1 = (s2, some note)) :
    note.velocity = VEL ∧ note.start = t0 ∧ note.stop = t0 + (t1 - t0) * (98 / 100) := by
  unfold walkBeat at h
  cases hobs : observe s pcs with
  | none =>
    rw [hobs] at h
    exact absurd (congrArg Prod.snd h) (by simp)
  | some s1 =>
    simp only [hobs] at h
    have hsnd := congrArg Prod.snd h
    simp only at hsnd
    have : note = ⟨pc_to_midi_near (select s1) (some ((s1.prevMidi).getD 36)), t0,
        t0 + (t1 - t0) * (98 / 100), VEL⟩ := (Option.some_injective _ hsnd).symm
    subst this
    exact ⟨rfl, rfl, rfl⟩

/-- Every note produced by the beat loop has the fixed velocity, starts at a
grid boundary and ends `0.98` of the way to the next boundary. -/
lemma bassRun_note_shape (chords : Instrument) :
    ∀ (beats : List ℚ) (s : WalkState) (n : Note), n ∈ bassRun chords s beats →
      n.velocity = VEL ∧ ∃ i t0 t1, beats[i]? = some t0 ∧ beats[i + 1]? = some t1 ∧
        n.start = t0 ∧ n.stop = t0 + (t1 - t0) * (98 / 100) := by
  intro beats
  induction beats with
  | nil => intro s n h; simp [bassRun] at h
  | cons t0 rest ih =>
    cases rest with
    | nil => intro s n h; simp [bassRun] at h
    | cons t1 rest2 =>
      intro s n h
      rw [bassRun] at h
      cases hwb : walkBeat s (chord_pitch_classes (notes_overlapping chords t0 t1)) t0 t1 with
      | mk s2 emitted =>
        rw [hwb] at h
        cases emitted with
        | none =>
          simp only at h
          obtain ⟨hv, i, u0, u1, hu0, hu1, hs, he⟩ := ih s2 n h
          exact ⟨hv, i + 1, u0, u1, by simpa using hu0, by simpa using hu1, hs, he⟩
        | some note =>
          simp only at h
          rcases List.mem_cons.1 h with rfl | h2
          · obtain ⟨hv, hs, he⟩ := walkBeat_note s _ t0 t1 s2 n hwb
            exact ⟨hv, 0, t0, t1, rfl, by simp, hs, he⟩
          · obtain ⟨hv, i, u0, u1, hu0, hu1, hs, he⟩ := ih s2 n h2
            exact ⟨hv, i + 1, u0, u1, by simpa using hu0, by simpa using hu1, hs, he⟩

/-- Velocity scaling touches nothing but velocities. -/
lemma scale_preserves_rest (inst : Instrument) (scale : ℚ) :
    (scale_instrument_velocity inst scale).program = inst.program ∧
    (scale_instrument_velocity inst scale).name = inst.name ∧
    (scale_instrument_velocity inst scale).isDrum = inst.isDrum ∧
    (scale_instrument_velocity inst scale).notes.length = inst.notes.length ∧
    (scale_instrument_velocity inst scale).notes.map (fun n => (n.pitch, n.start, n.stop)) =
      inst.notes.map (fun n => (n.pitch, n.start, n.stop)) := by
  refine ⟨rfl, rfl, rfl, by simp [scale_instrument_velocity], ?_⟩
  simp only [scale_instrument_velocity, List.map_map]
  rfl

/-- C8: on the success path the Track Emitter appends exactly one new track —
the bass with the fixed program, name and per-note velocity `VEL`, each note
starting at its window start and lasting `0.98` of the window — while every
other existing track is returned untouched and the chords track differs only
in note velocities. -/
theorem track_emitter_frame (pm : Score) (pref : String) (ci : ℕ) (ch : Instrument)
    (h1 : resolveChordsIdx pm pref = some ci) (h2 : pm.instruments[ci]? = some ch)
    (h3 : ch.notes ≠ []) :
    ∃ bass : Instrument,
      (add_bassline pm pref).instruments =
        (pm.instruments.set ci (scale_instrument_velocity ch CHORD_VEL_SCALE)) ++ [bass] ∧
      (add_bassline pm pref).instruments.length = pm.instruments.length + 1 ∧
      bass.program = BASS_PROGRAM ∧
      bass.name = "Walking Bass (auto)" ∧
      (∀ n ∈ bass.notes, n.velocity = VEL ∧
        ∃ i t0 t1,
          (computeBeats pm (scale_instrument_velocity ch CHORD_VEL_SCALE))[i]? = some t0 ∧
          (computeBeats pm (scale_instrument_velocity ch CHORD_VEL_SCALE))[i + 1]? = some t1 ∧
          n.start = t0 ∧ n.stop = t0 + (t1 - t0) * (98 / 100)) ∧
      (∀ j, j < pm.instruments.length → j ≠ ci →
        (add_bassline pm pref).instruments[j]? = pm.instruments[j]?) ∧
      ((scale_instrument_velocity ch CHORD_VEL_SCALE).notes.map
          (fun n => (n.pitch, n.start, n.stop)) =
        ch.notes.map (fun n => (n.pitch, n.start, n.stop))) := by
  have hsucc := add_bassline_success pm pref ci ch h1 h2 h3
  refine ⟨bassInstrument (bassRun (scale_instrument_velocity ch CHORD_VEL_SCALE) walkInit
    (computeBeats pm (scale_instrument_velocity ch CHORD_VEL_SCALE))), ?_, ?_, rfl, rfl,
    ?_, ?_, (scale_preserves_rest ch CHORD_VEL_SCALE).2.2.2.2⟩
  · rw [hsucc]
  · rw [hsucc]
    simp
  · intro n hn
    exact bassRun_note_shape _ _ walkInit n hn
  · intro j hj hne
    rw [hsucc]
    simp only
    rw [List.getElem?_append, if_pos (by rw [List.length_set]; exact hj)]
    exact List.getElem?_set_ne (Ne.symm hne)

/-- Witness for C8 on a one-track score with a prefix-matched chords track. -/
theorem track_emitter_frame_witness :
    ∃ bass : Instrument,
      (add_bassline ⟨[⟨0, "Piano, Chords: A", false, [⟨60, 0, 4, 80⟩]⟩], [], [0, 1], []⟩
          "Piano, Chords:").instruments =
        ((⟨[⟨0, "Piano, Chords: A", false, [⟨60, 0, 4, 80⟩]⟩], [], [0, 1], []⟩ :
          Score).instruments.set 0 (scale_instrument_velocity
            ⟨0, "Piano, Chords: A", false, [⟨60, 0, 4, 80⟩]⟩ CHORD_VEL_SCALE)) ++ [bass] ∧
      (add_bassline ⟨[⟨0, "Piano, Chords: A", false, [⟨60, 0, 4, 80⟩]⟩], [], [0, 1], []⟩
          "Piano, Chords:").instruments.length =
        (⟨[⟨0, "Piano, Chords: A", false, [⟨60, 0, 4, 80⟩]⟩], [], [0, 1], []⟩ :
          Score).instruments.length + 1 ∧
      bass.program = BASS_PROGRAM ∧
      bass.name = "Walking Bass (auto)" ∧
      (∀ n ∈ bass.notes, n.velocity = VEL ∧
        ∃ i t0 t1,
          (computeBeats ⟨[⟨0, "Piano, Chords: A", false, [⟨60, 0, 4, 80⟩]⟩], [], [0, 1], []⟩
            (scale_instrument_velocity ⟨0, "Piano, Chords: A", false, [⟨60, 0, 4, 80⟩]⟩
              CHORD_VEL_SCALE))[i]? = some t0 ∧
          (computeBeats ⟨[⟨0, "Piano, Chords: A", false, [⟨60, 0, 4, 80⟩]⟩], [], [0, 1], []⟩
            (scale_instrument_velocity ⟨0, "Piano, Chords: A", false, [⟨60, 0, 4, 80⟩]⟩
              CHORD_VEL_SCALE))[i + 1]? = some t1 ∧
          n.start = t0 ∧ n.stop = t0 + (t1 - t0) * (98 / 100)) ∧
      (∀ j, j < (⟨[⟨0, "Piano, Chords: A", false, [⟨60, 0, 4, 80⟩]⟩], [], [0, 1], []⟩ :
          Score).instruments.length → j ≠ 0 →
        (add_bassline ⟨[⟨0, "Piano, Chords: A", false, [⟨60, 0, 4, 80⟩]⟩], [], [0, 1], []⟩
          "Piano, Chords:").instruments[j]? =
          (⟨[⟨0, "Piano, Chords: A", false, [⟨60, 0, 4, 80⟩]⟩], [], [0, 1], []⟩ :
            Score).instruments[j]?) ∧
      ((scale_instrument_velocity ⟨0, "Piano, Chords: A", false, [⟨60, 0, 4, 80⟩]⟩
          CHORD_VEL_SCALE).notes.map (fun n => (n.pitch, n.start, n.stop)) =
        ([⟨60, 0, 4, 80⟩] : List Note).map (fun n => (n.pitch, n.start, n.stop))) :=
  track_emitter_frame ⟨[⟨0, "Piano, Chords: A", false, [⟨60, 0, 4, 80⟩]⟩], [], [0, 1], []⟩
    "Piano, Chords:" 0 ⟨0, "Piano, Chords: A", false, [⟨60, 0, 4, 80⟩]⟩ rfl rfl (by decide)

end JazzBass
